import Mathlib

/-!
# cfr: a shallow embedding of `main.go`

The program unpacks a jar into a staging directory (`Unzip`), walks the staged
tree (`traverse`) and, for every file whose path has no `$`, either runs the
external decompiler or copies the file (`extract`).

Conventions of the embedding

* Go strings are lists of characters (`Str`); file contents are lists of bytes.
* The `strings` and `path/filepath` functions the program calls are modelled
  for a Unix host (`os.PathSeparator` is `/`, no volume names).
* The file system is an association list from cleaned paths to nodes; the
  newest binding of a path is the first one.  Permissions, symbolic links and
  the working directory are not modelled: a relative and an absolute path never
  denote the same node, and `/` and `.` are directories that always exist.
  The operations resolve a path by cleaning it.  The operating system walks
  the path as written; the two agree on a path without a `..` element, and for
  a file that is opened or created, on a path that also ends in a name.  The
  theorems that speak about every path carry these conditions (`noDotDot`,
  `namesFile`, or the path being cleaned).
* `log.Fatalln` ends the run: every function that can reach it returns an
  `Outcome`.
* The external decompiler is a function from the command line and the file
  system to the captured standard output (`none` when `cmd.Output` fails); it
  leaves the file system as it is.
* `ioutil.ReadDir` is an input of the walk: an `Entry` for a directory carries
  the listing `ioutil.ReadDir` returns at the moment the walk enters that
  directory, whatever was written before.  The theorems about the walk hold for
  every such tree of listings.  Only `main` computes the listings itself, from
  the file system as it is when the walk starts.

The definitions come first, the theorems after them; the theorem of a claim
names the claim in its comment.
-/

namespace Cfr

abbrev Str := List Char
abbrev Bytes := List Nat

/-! ## package `strings` -/

/-- Go `strings.HasPrefix`. -/
def HasPrefix (s pre : Str) : Bool := pre.isPrefixOf s

/-- Go `strings.HasSuffix`. -/
def HasSuffix (s suf : Str) : Bool := suf.reverse.isPrefixOf s.reverse

/-- Go `strings.Contains`. -/
def Contains : Str → Str → Bool
  | [], sub => sub.isPrefixOf []
  | c :: t, sub => sub.isPrefixOf (c :: t) || Contains t sub

/-- The scan of Go `strings.Replace`: `cnt` replacements are still allowed and
`skip` characters of the occurrence matched last are still to be dropped. -/
def replaceAux (old new : Str) : Str → Nat → Nat → Str
  | [], cnt, _ => if old = [] ∧ 0 < cnt then new else []
  | _ :: t, cnt, skip + 1 => replaceAux old new t cnt skip
  | c :: t, 0, 0 => c :: t
  | c :: t, cnt + 1, 0 =>
    if old = [] then new ++ c :: replaceAux old new t cnt 0
    else if old.isPrefixOf (c :: t) then new ++ replaceAux old new t cnt (old.length - 1)
    else c :: replaceAux old new t (cnt + 1) 0

/-- Go `strings.Replace(s, old, new, n)`: the first `n` non-overlapping
occurrences of `old` are replaced, all of them when `n < 0`. -/
def Replace (s old new : Str) (n : Int) : Str :=
  if n < 0 then replaceAux old new s (s.length + 1) 0
  else replaceAux old new s n.toNat 0

/-- Go `strings.Split(s, "/")`. -/
def splitSlash : Str → List Str
  | [] => [[]]
  | c :: t =>
    if c = '/' then [] :: splitSlash t
    else match splitSlash t with
      | [] => [[c]]
      | h :: r => (c :: h) :: r

/-- Go `strings.Join(elems, "/")`. -/
def joinSlash : List Str → Str
  | [] => []
  | [a] => a
  | a :: b :: r => a ++ '/' :: joinSlash (b :: r)

/-! ## package `path/filepath` (Unix) -/

/-- One element of the path read by `filepath.Clean`; `st` holds the elements
kept so far, the last one first. -/
def cleanStep (rooted : Bool) (st : List Str) (comp : Str) : List Str :=
  if comp = [] ∨ comp = ['.'] then st
  else if comp = ['.', '.'] then
    match st with
    | [] => if rooted then [] else [comp]
    | top :: rest => if top = ['.', '.'] then comp :: top :: rest else rest
  else comp :: st

/-- Whether the path starts with the separator. -/
def isRooted (path : Str) : Bool := path.head? = some '/'

/-- The elements `filepath.Clean` keeps, the last one first. -/
def cleanStack (path : Str) : List Str :=
  (splitSlash path).foldl (cleanStep (isRooted path)) []

/-- The text of a cleaned path with the given elements. -/
def render (rooted : Bool) (st : List Str) : Str :=
  if rooted then '/' :: joinSlash st.reverse
  else if st = [] then ['.'] else joinSlash st.reverse

/-- Go `filepath.Clean`: empty and `.` elements are dropped, an inner `..`
removes the element before it, `..` at the start of a rooted path is dropped,
and the empty result is `.`. -/
def Clean (path : Str) : Str :=
  if path = [] then ['.'] else render (isRooted path) (cleanStack path)

/-- Go `filepath.Join` of two elements. -/
def Join (a b : Str) : Str :=
  if a ≠ [] then Clean (a ++ '/' :: b)
  else if b ≠ [] then Clean b
  else []

/-- The text up to and including the last separator. -/
def throughLastSlash (path : Str) : Str :=
  (path.reverse.dropWhile (fun c => c ≠ '/')).reverse

/-- Go `filepath.Dir`. -/
def Dir (path : Str) : Str := Clean (throughLastSlash path)

/-- Go `filepath.Base`. -/
def Base (path : Str) : Str :=
  if path = [] then ['.']
  else
    let p := (path.reverse.dropWhile (fun c => c = '/')).reverse
    let b := (p.reverse.takeWhile (fun c => c ≠ '/')).reverse
    if b = [] then ['/'] else b

/-! ## the file system -/

/-- What a path denotes. -/
inductive Node
  | file (data : Bytes)
  | dir
  deriving DecidableEq, Repr

abbrev FS := List (Str × Node)

/-- The node bound to a cleaned path. -/
def lookupNode (fs : FS) (q : Str) : Option Node :=
  if q = ['/'] ∨ q = ['.'] then some Node.dir else fs.lookup q

/-- Whether a regular file is bound to the cleaned path. -/
def isFileAt (fs : FS) (q : Str) : Bool :=
  match lookupNode fs q with
  | some (Node.file _) => true
  | _ => false

/-- Whether a directory is bound to the cleaned path. -/
def isDirAt (fs : FS) (q : Str) : Bool :=
  match lookupNode fs q with
  | some Node.dir => true
  | _ => false

/-- The proper prefixes of a path that end just before a separator. -/
def slashPrefixes : Str → List Str
  | [] => []
  | c :: t => (if c = '/' then [[]] else []) ++ (slashPrefixes t).map (fun s => c :: s)

/-- The directories above a cleaned path, outermost first (the root `/` of a
rooted path is left out: it always exists). -/
def ancestors (q : Str) : List Str := (slashPrefixes q).filter (fun s => s ≠ [])

/-- The result of `os.Stat` as far as the program looks at it. -/
inductive StatResult
  | found (n : Node)
  | notExist
  | otherErr
  deriving DecidableEq, Repr

/-- Go `os.Stat`: `otherErr` (ENOTDIR) when a directory above the path is a file.
The path is resolved by cleaning it, as the operating system resolves a path
without a `..` element; a trailing separator after a regular file, which the
operating system answers with ENOTDIR, is not told apart from the file itself
(neither answer is `notExist`). -/
def Stat (fs : FS) (p : Str) : StatResult :=
  if p = [] then StatResult.notExist
  else if (ancestors (Clean p)).any (isFileAt fs) then StatResult.otherErr
  else match lookupNode fs (Clean p) with
    | some n => StatResult.found n
    | none => StatResult.notExist

/-- Go `os.IsNotExist` applied to the error of `os.Stat`. -/
def IsNotExist (r : StatResult) : Bool :=
  match r with
  | StatResult.notExist => true
  | _ => false

/-- Go `os.MkdirAll`: `none` is an error, which leaves the file system as it was.
The directories made are those of the cleaned path, which are the ones
`os.MkdirAll` makes for a path without a `..` element (for `x/../y` it would
make `x` as well). -/
def MkdirAll (fs : FS) (p : Str) : Option FS :=
  if p = [] then none
  else if (ancestors (Clean p) ++ [Clean p]).any (isFileAt fs) then none
  else some (((ancestors (Clean p) ++ [Clean p]).filter
      (fun a => (lookupNode fs a).isNone)).map (fun a => (a, Node.dir)) ++ fs)

/-- Whether the path has no `..` element. -/
def noDotDot (p : Str) : Bool := !(splitSlash p).contains ['.', '.']

/-- Whether the path has no `..` element and ends in a name: its last element
is neither empty (a trailing separator) nor `.`. -/
def namesFile (p : Str) : Bool :=
  noDotDot p && (splitSlash p).getLast? != some [] && (splitSlash p).getLast? != some ['.']

/-- Go `os.Mkdir`. -/
def Mkdir (fs : FS) (p : Str) : Option FS :=
  if p = [] then none
  else if (lookupNode fs (Clean p)).isSome then none
  else if (ancestors (Clean p)).all (isDirAt fs) then some ((Clean p, Node.dir) :: fs)
  else none

/-- Creating or truncating the file at `p` and writing `data` to it
(`os.Create`, `os.OpenFile` with `O_CREATE|O_TRUNC`, `ioutil.WriteFile`).  The
file is made at the cleaned path, as the operating system does for a path
without a `..` element that ends in a name (`namesFile`). -/
def createFile (fs : FS) (p : Str) (data : Bytes) : Option FS :=
  if p = [] then none
  else if isDirAt fs (Clean p) then none
  else if (ancestors (Clean p)).all (isDirAt fs) then some ((Clean p, Node.file data) :: fs)
  else none

/-! ## the archive -/

/-- An entry of the archive (`*zip.File`). -/
structure ZipFile where
  Name : Str
  /-- the mode bits of the entry mark a directory -/
  dirAttr : Bool
  /-- `f.Open()` fails -/
  openErr : Bool
  /-- the bytes the reader of the entry delivers -/
  data : Bytes
  /-- the reader ends with an error instead of EOF -/
  readErr : Bool
  deriving DecidableEq, Repr

/-- Go `f.FileInfo().IsDir()`: a name that ends with `/` is a directory too. -/
def ZipFile.IsDir (f : ZipFile) : Bool := f.dirAttr || HasSuffix f.Name ['/']

/-- The errors `Unzip` returns. -/
inductive Error
  | openReader (src : Str)
  | entryOpen (name : Str)
  | errorf (msg : Str)
  | openFile (path : Str)
  | copy (path : Str)
  deriving DecidableEq, Repr

/-- The closure `extractAndWriteFile` of `Unzip`. -/
def extractAndWriteFile (dest : Str) (f : ZipFile) (fs : FS) : FS × Option Error :=
  if f.openErr then (fs, some (Error.entryOpen f.Name))
  else
    let path := Join dest f.Name
    if !HasPrefix path (Clean dest ++ ['/']) then
      (fs, some (Error.errorf ("illegal file path: ".toList ++ path)))
    else if f.IsDir then
      ((MkdirAll fs path).getD fs, none)
    else
      let fs1 := (MkdirAll fs (Dir path)).getD fs
      match createFile fs1 path f.data with
      | none => (fs1, some (Error.openFile path))
      | some fs2 => if f.readErr then (fs2, some (Error.copy path)) else (fs2, none)

/-- The loop of `Unzip` over `r.File`. -/
def unzipLoop (dest : Str) : List ZipFile → FS → FS × Option Error
  | [], fs => (fs, none)
  | f :: rest, fs =>
    match extractAndWriteFile dest f fs with
    | (fs1, none) => unzipLoop dest rest fs1
    | (fs1, some err) => (fs1, some err)

/-- `Unzip(src, dest)`; `openReader` is `zip.OpenReader`. -/
def Unzip (openReader : Str → FS → Option (List ZipFile)) (src dest : Str) (fs : FS) :
    FS × Option Error :=
  match openReader src fs with
  | none => (fs, some (Error.openReader src))
  | some files => unzipLoop dest files ((MkdirAll fs dest).getD fs)

/-! ## the production step -/

/-- The state of a run: the file system, the external commands started so far
(oldest first) and the paths handed to `extract` so far (oldest first). -/
structure World where
  fs : FS
  calls : List (List Str)
  handed : List Str

/-- How a function that can reach `log.Fatalln` ends. -/
inductive Outcome
  | done (w : World)
  | fatal (msg : Str) (w : World)

/-- The state in which the function ended. -/
def Outcome.world : Outcome → World
  | Outcome.done w => w
  | Outcome.fatal _ w => w

/-- Whether the function returned, that is, `log.Fatalln` was not reached. -/
def Outcome.isDone : Outcome → Bool
  | Outcome.done _ => true
  | Outcome.fatal _ _ => false

/-- The package-level variables of `main.go`. -/
structure Globals where
  Jar : Str
  Out : Str
  java : Str
  tmpDir : Str
  class_ : Str

/-- `copyFile(in, out)`: the number of bytes copied, `none` for an error. -/
def copyFile (fs : FS) (src out : Str) : FS × Option Nat :=
  match Stat fs src with
  | StatResult.found _ =>
    match createFile fs out [] with
    | none => (fs, none)
    | some fs1 =>
      match lookupNode fs1 (Clean src) with
      | some (Node.file d) =>
        match createFile fs1 out d with
        | none => (fs1, none)
        | some fs2 => (fs2, some d.length)
      | _ => (fs1, none)
  | _ => (fs, none)

/-- The backslash. -/
def backslash : Char := Char.ofNat 92

/-- `path` after line 108 of `extract`. -/
def slashed (path : Str) : Str := Replace path [backslash] ['/'] (-1)

/-- `out` after line 111 of `extract`. -/
def mappedPath (path out tempDir : Str) : Str :=
  Replace (slashed path) (slashed tempDir) out 1

/-- `outDir` of `extract` (line 114). -/
def outputDir (path out tempDir : Str) : Str :=
  Replace (mappedPath path out tempDir) (Base (slashed path)) [] 1

/-- `out` after line 125 of `extract`: the path the output is written to. -/
def outputPath (path out tempDir : Str) : Str :=
  Replace (mappedPath path out tempDir) ".class".toList ".java".toList 1

/-- The command line `extract` starts. -/
def decompileCmd (java path class_ : Str) : List Str :=
  [java, "-jar".toList, "cfr.jar".toList, path, class_]

/-- Lines 116 to 123 of `extract`: the directory is made when `os.Stat` says it
does not exist; `none` when making it fails. -/
def ensureDir (fs : FS) (outDir : Str) : Option FS :=
  if IsNotExist (Stat fs outDir) then MkdirAll fs outDir else some fs

/-- `extract(path, class, out, tempDir)`; `run` is the external command. -/
def extract (run : List Str → FS → Option Bytes) (java : Str)
    (path class_ out tempDir : Str) (w : World) : Outcome :=
  match ensureDir w.fs (outputDir path out tempDir) with
  | none => Outcome.fatal "ERROR: UNABLE TO CREATE OUTPUT DIRECTORY".toList w
  | some fs1 =>
    let out1 := outputPath path out tempDir
    if IsNotExist (Stat fs1 out1) then
      if HasSuffix out1 ".java".toList then
        let w1 : World :=
          { w with fs := fs1, calls := w.calls ++ [decompileCmd java (slashed path) class_] }
        match run (decompileCmd java (slashed path) class_) fs1 with
        | none => Outcome.fatal "ERROR: UNABLE TO EXTRACT CLASS".toList w1
        | some outPut =>
          match createFile fs1 out1 outPut with
          | none => Outcome.fatal "ERROR: UNABLE TO WRITE OUTPUT TO FILE".toList w1
          | some fs2 => Outcome.done { w1 with fs := fs2 }
      else
        match copyFile fs1 (slashed path) out1 with
        | (fs2, none) => Outcome.fatal "ERROR: UNABLE TO COPY FILE".toList { w with fs := fs2 }
        | (fs2, some _) => Outcome.done { w with fs := fs2 }
    else Outcome.done { w with fs := fs1 }

/-! ## the walk -/

/-- An entry of a directory listing as `ioutil.ReadDir` returns it.  A directory
carries what `ioutil.ReadDir` answers when the walk enters it: whether it can
be read, and its listing at that moment, in listing order. -/
inductive Entry
  | file (name : Str)
  | dir (name : Str) (readable : Bool) (children : List Entry)

mutual
/-- The body of the loop of `traverse` for the entry `f` of `temppath`.  The
call `traverse(fullPath)` for a directory is the test whether the directory can
be read, followed by the loop over its listing. -/
def visit (run : List Str → FS → Option Bytes) (g : Globals) (temppath : Str) :
    Entry → World → Outcome
  | Entry.file name, w =>
    if !Contains (Join temppath name) ['$'] then
      extract run g.java (Join temppath name) g.class_ g.Out g.tmpDir
        { w with handed := w.handed ++ [Join temppath name] }
    else Outcome.done w
  | Entry.dir name readable children, w =>
    if readable then walk run g (Join temppath name) children w
    else Outcome.fatal "ERROR: UNABLE TO READ DIRECTORY".toList w
/-- The loop of `traverse` over the listing of `temppath`. -/
def walk (run : List Str → FS → Option Bytes) (g : Globals) (temppath : Str) :
    List Entry → World → Outcome
  | [], w => Outcome.done w
  | f :: rest, w =>
    match visit run g temppath f w with
    | Outcome.done w1 => walk run g temppath rest w1
    | Outcome.fatal msg w1 => Outcome.fatal msg w1
end

/-- `traverse(temppath)`; `listing` is what `ioutil.ReadDir(temppath)` returns
when the call starts, and the entries in it carry the answers for the
directories below. -/
def traverse (run : List Str → FS → Option Bytes) (g : Globals) (temppath : Str)
    (listing : Option (List Entry)) (w : World) : Outcome :=
  match listing with
  | none => Outcome.fatal "ERROR: UNABLE TO READ DIRECTORY".toList w
  | some files => walk run g temppath files w

/-! ## the command line and `main` -/

/-- The flag set `flag.CommandLine` with the two flags of `main.go`; `args` are
the arguments left after the flags, empty until `flag.Parse` has run. -/
structure FlagSet where
  Jar : Str
  Out : Str
  args : List Str

/-- The flag set when the package-level variables are set up: the defaults of
`-jar` and `-out`, nothing parsed yet. -/
def commandLine : FlagSet := { Jar := [], Out := "./src".toList, args := [] }

/-- Go `flag.Arg(i)`: the empty string when there is no such argument. -/
def FlagSet.Arg (f : FlagSet) (i : Nat) : Str := f.args.getD i []

/-- Setting a flag by name; `none` when the flag is not defined. -/
def setFlag (f : FlagSet) (name value : Str) : Option FlagSet :=
  if name = "jar".toList then some { f with Jar := value }
  else if name = "out".toList then some { f with Out := value }
  else none

/-- Go `flag.Parse` over the arguments `os.Args[1:]`; `pending` is a flag that
still waits for its value.  `none`: the flag package ends the process. -/
def parseFrom : List Str → Option Str → FlagSet → Option FlagSet
  | [], none, f => some { f with args := [] }
  | [], some _, _ => none
  | s :: rest, some name, f =>
    match setFlag f name s with
    | some f1 => parseFrom rest none f1
    | none => none
  | s :: rest, none, f =>
    if s.length < 2 ∨ s.head? ≠ some '-' then some { f with args := s :: rest }
    else if s = ['-', '-'] then some { f with args := rest }
    else
      let name := if s.tail.head? = some '-' then s.drop 2 else s.drop 1
      if name = [] ∨ name.head? = some '-' ∨ name.head? = some '=' then none
      else if name.contains '=' then
        match setFlag f (name.takeWhile (fun c => c ≠ '=')) ((name.dropWhile (fun c => c ≠ '=')).drop 1) with
        | some f1 => parseFrom rest none f1
        | none => none
      else if name = "jar".toList ∨ name = "out".toList then parseFrom rest (some name) f
      else none

/-- The order of file names `ioutil.ReadDir` sorts by. -/
def strLe : Str → Str → Bool
  | [], _ => true
  | _ :: _, [] => false
  | a :: s, b :: t => a.toNat < b.toNat || (a = b && strLe s t)

/-- Insertion into a sorted list of distinct names. -/
def insertSorted (n : Str) : List Str → List Str
  | [] => [n]
  | m :: r => if n = m then m :: r else if strLe n m then n :: m :: r else m :: insertSorted n r

/-- The name of the path `k` inside the directory `d`, when `k` lies directly in it. -/
def childName (d k : Str) : Option Str :=
  let pre := if d = ['/'] then d else if d = ['.'] then [] else d ++ ['/']
  if pre.isPrefixOf k ∧ k.drop pre.length ≠ [] ∧ '/' ∉ k.drop pre.length then
    some (k.drop pre.length)
  else none

/-- The names in the directory `d`, sorted. -/
def readNames (fs : FS) (d : Str) : List Str :=
  (fs.filterMap (fun kv => childName d kv.1)).foldr insertSorted []

/-- The listing of the directory `d` with the listings of the directories in
it, read off the file system; `fuel` bounds the depth. -/
def listing : Nat → FS → Str → List Entry
  | 0, _, _ => []
  | fuel + 1, fs, d =>
    (readNames fs d).map (fun n =>
      if isDirAt fs (Join d n) then Entry.dir n true (listing fuel fs (Join d n))
      else Entry.file n)

/-- Go `ioutil.ReadDir(d)` together with the listings below it. -/
def ReadDir (fs : FS) (d : Str) : Option (List Entry) :=
  if d ≠ [] ∧ isDirAt fs (Clean d) ∧ (ancestors (Clean d)).all (isDirAt fs) then
    some (listing (fs.length + 1) fs (Clean d))
  else none

/-- What a run gets from outside. -/
structure Env where
  /-- `os.Args[1:]` -/
  args : List Str
  /-- `exec.LookPath("java")` -/
  lookPath : Option Str
  /-- the directory `ioutil.TempDir("", "cfr")` makes -/
  tempName : Str
  /-- `zip.OpenReader` -/
  openReader : Str → FS → Option (List ZipFile)
  /-- the external command: its standard output, `none` when it fails -/
  run : List Str → FS → Option Bytes

/-- `main()`.  The package-level `class = flag.Arg(0)` is evaluated when the
package is set up, before `main` calls `flag.Parse`.  The listings of the walk
are read off the file system as it is when the walk starts; these are the
answers of `ioutil.ReadDir` during the walk as long as `extract` writes nothing
below the staging directory. -/
def main (env : Env) (fs : FS) : Outcome :=
  let class_ := commandLine.Arg 0
  let w0 : World := { fs := fs, calls := [], handed := [] }
  if IsNotExist (Stat fs "cfr.jar".toList) then Outcome.done w0
  else
    match env.lookPath with
    | none => Outcome.fatal "ERROR: NO JAVA INSTALLED, please install java".toList w0
    | some java =>
      match parseFrom env.args none commandLine with
      | none => Outcome.fatal "flag".toList w0
      | some flags =>
        if flags.Jar = [] then Outcome.fatal "ERROR: NO JAR FILE PROVIDED".toList w0
        else if IsNotExist (Stat fs flags.Jar) then
          Outcome.fatal "ERROR: JAR FILE DOES NOT EXIST".toList w0
        else
          match Mkdir fs env.tempName with
          | none => Outcome.fatal "ERROR: UNABLE TO CREATE TEMPORARY DIRECTORY".toList w0
          | some fs1 =>
            let fs2 := (Unzip env.openReader flags.Jar env.tempName fs1).1
            let fs3 := if IsNotExist (Stat fs2 flags.Out) then (Mkdir fs2 flags.Out).getD fs2 else fs2
            traverse env.run
              { Jar := flags.Jar, Out := flags.Out, java := java, tmpDir := env.tempName,
                class_ := class_ }
              env.tempName (ReadDir fs3 env.tempName) { w0 with fs := fs3 }

/-- A stack of path elements as `filepath.Clean` leaves it (last element
first): no empty element, no `.`, no separator inside an element, and `..`
only at the bottom of the stack of a path that is not rooted. -/
def Normal (r : Bool) : List Str → Prop
  | [] => True
  | c :: rest =>
    (c = ['.', '.'] → r = false ∧ ∀ d ∈ rest, d = ['.', '.']) ∧
      c ≠ [] ∧ c ≠ ['.'] ∧ '/' ∉ c ∧ Normal r rest

/-! ## the depth-first flattening of a tree of listings -/

mutual
/-- The relative paths of the files of an entry, depth first in listing order. -/
def Entry.relPaths : Entry → List Str
  | Entry.file name => [name]
  | Entry.dir name _ children => (relPathsOf children).map (fun r => name ++ '/' :: r)
/-- The relative paths of the files of a listing, depth first in listing order:
the files of a directory stand where the directory stands in its parent. -/
def relPathsOf : List Entry → List Str
  | [] => []
  | e :: rest => e.relPaths ++ relPathsOf rest
end

/-- The paths a walk of the listings under `root` is to hand over: the root
joined with every relative path, in depth-first order, without the paths that
contain `$`. -/
def flatten (root : Str) (files : List Entry) : List Str :=
  ((relPathsOf files).map (Join root)).filter (fun p => !Contains p ['$'])

/-- The package-level variables of a run that stages into `/tmp/x`. -/
def demoGlobals : Globals :=
  { Jar := "app.jar".toList, Out := "./src".toList, java := "java".toList,
    tmpDir := "/tmp/x".toList, class_ := [] }

/-- The listing of the tree staged in `stagedFS`. -/
def stagedTree : List Entry :=
  [Entry.dir "META-INF".toList true [Entry.file "MANIFEST.MF".toList],
   Entry.file "notes.java".toList, Entry.file "s".toList]

/-! ## sample inputs -/

/-- An archive entry for a regular file that opens and reads without error. -/
def plainEntry (name : String) (data : Bytes) : ZipFile :=
  { Name := name.toList, dirAttr := false, openErr := false, data := data, readErr := false }

/-- A file system with `/tmp`, and `cfr.jar` and `app.jar` in the working directory. -/
def baseFS : FS :=
  [("cfr.jar".toList, Node.file []), ("app.jar".toList, Node.file []), ("/tmp".toList, Node.dir)]

/-- An archive with a class, an entry that leaves the staging root and a second class. -/
def evilJar : List ZipFile :=
  [plainEntry "Foo.class" [1, 2], plainEntry "../../evil" [6], plainEntry "Bar.class" [3]]

/-- An archive whose only entry leaves the staging root and cannot be opened. -/
def brokenJar : List ZipFile :=
  [{ plainEntry "../../evil" [6] with openErr := true }]

/-- An archive with a rooted name and a name with an inner `..`. -/
def rootedJar : List ZipFile :=
  [plainEntry "/etc/passwd" [1], plainEntry "a/../b" [2]]

/-- A staged tree under `/tmp/x` and an empty output directory `src`. -/
def stagedFS : FS :=
  [("/tmp/x/META-INF/MANIFEST.MF".toList, Node.file [77, 97]),
   ("/tmp/x/META-INF".toList, Node.dir),
   ("/tmp/x/notes.java".toList, Node.file [1, 2, 3]),
   ("/tmp/x/s".toList, Node.file [5]),
   ("/tmp/x".toList, Node.dir), ("/tmp".toList, Node.dir), ("src".toList, Node.dir)]

/-- A decompiler that prints the one byte `9` for every class. -/
def demoRun : List Str → FS → Option Bytes := fun _ _ => some [9]

/-- A decompiler that fails on every class. -/
def failRun : List Str → FS → Option Bytes := fun _ _ => none

/-- The state in which nothing has been started or handed over yet. -/
def freshWorld (fs : FS) : World := { fs := fs, calls := [], handed := [] }

/-- An archive with two classes. -/
def classJar : List ZipFile :=
  [plainEntry "com/acme/Foo.class" [1], plainEntry "com/acme/Bar.class" [2]]

/-- A run `cfr -jar app.jar com.acme.Foo` that stages the archive `jar` in `/tmp/cfr1`. -/
def demoEnv (jar : List ZipFile) : Env :=
  { args := ["-jar".toList, "app.jar".toList, "com.acme.Foo".toList]
    lookPath := some "/usr/bin/java".toList
    tempName := "/tmp/cfr1".toList
    openReader := fun _ _ => some jar
    run := demoRun }

/-! # Theorems -/

/-! ## `strings.Split` and `strings.Join` -/

theorem splitSlash_ne_nil (s : Str) : splitSlash s ≠ [] := by
  cases s with
  | nil => simp [splitSlash]
  | cons c t =>
    unfold splitSlash
    split
    · simp
    · split <;> simp

theorem splitSlash_append (a b : Str) :
    splitSlash (a ++ '/' :: b) = splitSlash a ++ splitSlash b := by
  induction a with
  | nil => simp [splitSlash]
  | cons c t ih =>
    by_cases hc : c = '/'
    · simp [splitSlash, hc, ih]
    · have hne := splitSlash_ne_nil t
      cases hs : splitSlash t with
      | nil => exact absurd hs hne
      | cons h r => simp [splitSlash, hc, ih, hs]

theorem splitSlash_of_no_slash (c : Str) (h : '/' ∉ c) : splitSlash c = [c] := by
  induction c with
  | nil => simp [splitSlash]
  | cons x t ih =>
    have hx : x ≠ '/' := fun e => h (by simp [e])
    have ht : '/' ∉ t := fun e => h (List.mem_cons_of_mem _ e)
    simp [splitSlash, hx, ih ht]

theorem splitSlash_no_slash (s : Str) : ∀ c ∈ splitSlash s, '/' ∉ c := by
  induction s with
  | nil => simp [splitSlash]
  | cons x t ih =>
    by_cases hx : x = '/'
    · simp only [splitSlash, hx, if_true]
      intro c hc
      rcases List.mem_cons.1 hc with h | h
      · simp [h]
      · exact ih c h
    · simp only [splitSlash, hx, if_false]
      cases hs : splitSlash t with
      | nil => exact absurd hs (splitSlash_ne_nil t)
      | cons h r =>
        rw [hs] at ih
        intro c hc
        rcases List.mem_cons.1 hc with e | e
        · subst e
          intro hm
          rcases List.mem_cons.1 hm with e1 | e1
          · exact hx e1.symm
          · exact ih h (List.mem_cons_self _ _) e1
        · exact ih c (List.mem_cons_of_mem _ e)

theorem joinSlash_splitSlash (s : Str) : joinSlash (splitSlash s) = s := by
  induction s with
  | nil => simp [splitSlash, joinSlash]
  | cons x t ih =>
    cases hs : splitSlash t with
    | nil => exact absurd hs (splitSlash_ne_nil t)
    | cons h r =>
      rw [hs] at ih
      by_cases hx : x = '/'
      · simp [splitSlash, hx, hs, joinSlash, ih]
      · simp only [splitSlash, hx, if_false, hs]
        cases r with
        | nil => simpa [joinSlash] using ih
        | cons b r2 =>
          simp only [joinSlash] at ih ⊢
          simp [ih]

theorem splitSlash_joinSlash (cs : List Str) (hne : cs ≠ []) (h : ∀ c ∈ cs, '/' ∉ c) :
    splitSlash (joinSlash cs) = cs := by
  induction cs with
  | nil => exact absurd rfl hne
  | cons a r ih =>
    cases r with
    | nil => simpa [joinSlash] using splitSlash_of_no_slash a (h a (by simp))
    | cons b r2 =>
      simp only [joinSlash]
      rw [splitSlash_append, splitSlash_of_no_slash a (h a (by simp)),
        ih (by simp) (fun c hc => h c (List.mem_cons_of_mem _ hc))]
      simp

/-! ## `filepath.Clean` -/

theorem cleanStep_normal (r : Bool) (st : List Str) (c : Str)
    (hst : Normal r st) (hc : '/' ∉ c) : Normal r (cleanStep r st c) := by
  unfold cleanStep
  split
  · exact hst
  · rename_i h1
    have hne : c ≠ [] := fun e => h1 (Or.inl e)
    have hdot : c ≠ ['.'] := fun e => h1 (Or.inr e)
    split
    · rename_i h2
      cases st with
      | nil =>
        cases r with
        | true => simp [Normal]
        | false => simp [Normal, h2]
      | cons top rest =>
        simp only
        split
        · rename_i h3
          have ht := hst
          simp only [Normal] at ht
          obtain ⟨ha, hb, hc2, hd, he⟩ := ht
          obtain ⟨hr, hall⟩ := ha h3
          refine ⟨fun _ => ⟨hr, ?_⟩, hne, hdot, hc, hst⟩
          intro d hd2
          rcases List.mem_cons.1 hd2 with e | e
          · rw [e]; exact h3
          · exact hall d e
        · exact hst.2.2.2.2
    · rename_i h2
      exact ⟨fun e => absurd e h2, hne, hdot, hc, hst⟩

theorem foldl_cleanStep_normal (r : Bool) (cs : List Str) :
    ∀ st : List Str, Normal r st → (∀ c ∈ cs, '/' ∉ c) →
      Normal r (cs.foldl (cleanStep r) st) := by
  induction cs with
  | nil => intro st h _; exact h
  | cons c t ih =>
    intro st h hc
    simp only [List.foldl_cons]
    exact ih _ (cleanStep_normal r st c h (hc c (by simp)))
      (fun d hd => hc d (List.mem_cons_of_mem _ hd))

theorem cleanStack_normal (p : Str) : Normal (isRooted p) (cleanStack p) :=
  foldl_cleanStep_normal _ _ [] trivial (splitSlash_no_slash p)

theorem normal_of_append (r : Bool) (a b : List Str) (h : Normal r (a ++ b)) : Normal r b := by
  induction a with
  | nil => exact h
  | cons c t ih => exact ih h.2.2.2.2

theorem normal_no_slash (r : Bool) (st : List Str) (h : Normal r st) : ∀ c ∈ st, '/' ∉ c := by
  induction st with
  | nil => simp
  | cons c t ih =>
    intro d hd
    rcases List.mem_cons.1 hd with e | e
    · rw [e]; exact h.2.2.2.1
    · exact ih h.2.2.2.2 d e

theorem normal_ne_nil (r : Bool) (st : List Str) (h : Normal r st) : ∀ c ∈ st, c ≠ [] := by
  induction st with
  | nil => simp
  | cons c t ih =>
    intro d hd
    rcases List.mem_cons.1 hd with e | e
    · rw [e]; exact h.2.1
    · exact ih h.2.2.2.2 d e

theorem cleanStep_push (r : Bool) (c : Str) (rest : List Str) (h : Normal r (c :: rest)) :
    cleanStep r rest c = c :: rest := by
  obtain ⟨ha, hne, hdot, _, _⟩ := h
  unfold cleanStep
  rw [if_neg (by simp [hne, hdot])]
  split
  · rename_i h2
    obtain ⟨hr, hall⟩ := ha h2
    cases rest with
    | nil => simp [hr]
    | cons top rest2 => simp [hall top (by simp)]
  · rfl

theorem refold_normal (r : Bool) (st : List Str) (h : Normal r st) :
    st.reverse.foldl (cleanStep r) [] = st := by
  induction st with
  | nil => rfl
  | cons c rest ih =>
    rw [List.reverse_cons, List.foldl_append, ih h.2.2.2.2]
    simpa using cleanStep_push r c rest h

theorem head_joinSlash (c : Str) (cs : List Str) (hc : c ≠ []) :
    (joinSlash (c :: cs)).head? = c.head? := by
  cases c with
  | nil => exact absurd rfl hc
  | cons x t => cases cs <;> simp [joinSlash]

theorem isRooted_render (r : Bool) (st : List Str) (h : Normal r st) :
    isRooted (render r st) = r := by
  cases r with
  | true => simp [render, isRooted]
  | false =>
    by_cases hst : st = []
    · simp [render, isRooted, hst]
    · simp only [render, hst, if_false, Bool.false_eq_true]
      cases hrev : st.reverse with
      | nil => simp at hrev; exact absurd hrev hst
      | cons c cs =>
        have hmem : c ∈ st := by
          have : c ∈ st.reverse := by rw [hrev]; simp
          simpa using this
        have hne := normal_ne_nil _ _ h c hmem
        have hns := normal_no_slash _ _ h c hmem
        unfold isRooted
        rw [head_joinSlash c cs hne]
        cases c with
        | nil => exact absurd rfl hne
        | cons x t =>
          have : x ≠ '/' := fun e => hns (by simp [e])
          simp [this]

theorem splitSlash_render_fold (r : Bool) (st : List Str) (h : Normal r st) :
    (splitSlash (render r st)).foldl (cleanStep r) [] = st := by
  have hns : ∀ c ∈ st.reverse, '/' ∉ c := fun c hc =>
    normal_no_slash _ _ h c (by simpa using hc)
  cases r with
  | true =>
    by_cases hst : st = []
    · subst hst; simp [render, splitSlash, joinSlash, cleanStep]
    · have hrev : st.reverse ≠ [] := by simpa using hst
      simp only [render, if_true, splitSlash]
      rw [splitSlash_joinSlash _ hrev hns]
      simp only [List.foldl_cons]
      have : cleanStep true [] [] = [] := by simp [cleanStep]
      rw [this]
      exact refold_normal _ _ h
  | false =>
    by_cases hst : st = []
    · subst hst; simp [render, splitSlash, cleanStep]
    · have hrev : st.reverse ≠ [] := by simpa using hst
      simp only [render, hst, if_false, Bool.false_eq_true]
      rw [splitSlash_joinSlash _ hrev hns]
      exact refold_normal _ _ h

theorem cleanStack_render (r : Bool) (st : List Str) (h : Normal r st) :
    cleanStack (render r st) = st := by
  unfold cleanStack
  rw [isRooted_render r st h]
  exact splitSlash_render_fold r st h

theorem Clean_eq_render (p : Str) : Clean p = render (isRooted p) (cleanStack p) := by
  unfold Clean
  split
  · rename_i h; subst h; simp [render, isRooted, cleanStack, splitSlash, cleanStep]
  · rfl

theorem render_ne_nil (r : Bool) (st : List Str) (h : Normal r st) : render r st ≠ [] := by
  cases r with
  | true => simp [render]
  | false =>
    by_cases hst : st = []
    · simp [render, hst]
    · intro e
      have := isRooted_render false st h
      have h2 := splitSlash_render_fold false st h
      rw [e] at h2
      simp [splitSlash, cleanStep] at h2
      exact hst h2

theorem Clean_ne_nil (p : Str) : Clean p ≠ [] := by
  rw [Clean_eq_render]
  exact render_ne_nil _ _ (cleanStack_normal p)

theorem Clean_render (r : Bool) (st : List Str) (h : Normal r st) :
    Clean (render r st) = render r st := by
  rw [Clean_eq_render, isRooted_render r st h, cleanStack_render r st h]

theorem Clean_idem (p : Str) : Clean (Clean p) = Clean p := by
  rw [Clean_eq_render p]
  exact Clean_render _ _ (cleanStack_normal p)

theorem isRooted_append (x y : Str) (hx : x ≠ []) : isRooted (x ++ y) = isRooted x := by
  cases x with
  | nil => exact absurd rfl hx
  | cons c t => simp [isRooted]

theorem cleanStack_append (x y : Str) (hx : x ≠ []) :
    cleanStack (x ++ '/' :: y) =
      (splitSlash y).foldl (cleanStep (isRooted x)) (cleanStack x) := by
  unfold cleanStack
  rw [isRooted_append x _ hx, splitSlash_append, List.foldl_append]

theorem Clean_append_Clean (x y : Str) (hx : x ≠ []) :
    Clean (Clean x ++ '/' :: y) = Clean (x ++ '/' :: y) := by
  have hn := cleanStack_normal x
  rw [Clean_eq_render (Clean x ++ '/' :: y), Clean_eq_render (x ++ '/' :: y),
    isRooted_append _ _ (Clean_ne_nil x), isRooted_append _ _ hx,
    cleanStack_append _ _ (Clean_ne_nil x), cleanStack_append _ _ hx,
    Clean_eq_render x, isRooted_render _ _ hn, cleanStack_render _ _ hn]

theorem Clean_append_slash (a : Str) (ha : a ≠ []) : Clean (a ++ ['/']) = Clean a := by
  rw [Clean_eq_render (a ++ ['/']), Clean_eq_render a, isRooted_append _ _ ha,
    cleanStack_append _ _ ha]
  simp [splitSlash, cleanStep, cleanStack]

theorem render_slash_prefix (r : Bool) (st : List Str) (h : Normal r st) (a b : Str)
    (ha : a ≠ []) (e : render r st = a ++ '/' :: b) :
    ∃ st1, Normal r st1 ∧ render r st1 = a := by
  have hns : ∀ c ∈ st.reverse, '/' ∉ c := fun c hc =>
    normal_no_slash _ _ h c (by simpa using hc)
  cases r with
  | true =>
    cases a with
    | nil => exact absurd rfl ha
    | cons x a2 =>
      simp only [render, if_true, List.cons_append, List.cons.injEq] at e
      obtain ⟨hx, e2⟩ := e
      by_cases hst : st = []
      · subst hst; simp [joinSlash] at e2
      · have hrev : st.reverse ≠ [] := by simpa using hst
        have e3 := congrArg splitSlash e2
        rw [splitSlash_joinSlash _ hrev hns, splitSlash_append] at e3
        have e4 : st = (splitSlash b).reverse ++ (splitSlash a2).reverse := by
          have := congrArg List.reverse e3
          simpa using this
        refine ⟨(splitSlash a2).reverse, ?_, ?_⟩
        · rw [e4] at h; exact normal_of_append _ _ _ h
        · simp [render, joinSlash_splitSlash, hx.symm]
  | false =>
    by_cases hst : st = []
    · subst hst
      simp only [render, Bool.false_eq_true, if_false, if_true] at e
      cases a with
      | nil => exact absurd rfl ha
      | cons x a2 => simp at e
    · have hrev : st.reverse ≠ [] := by simpa using hst
      simp only [render, hst, if_false, Bool.false_eq_true] at e
      have e3 := congrArg splitSlash e
      rw [splitSlash_joinSlash _ hrev hns, splitSlash_append] at e3
      have e4 : st = (splitSlash b).reverse ++ (splitSlash a).reverse := by
        have := congrArg List.reverse e3
        simpa using this
      refine ⟨(splitSlash a).reverse, ?_, ?_⟩
      · rw [e4] at h; exact normal_of_append _ _ _ h
      · have : (splitSlash a).reverse ≠ [] := by simpa using splitSlash_ne_nil a
        simp [render, this, joinSlash_splitSlash]

theorem Clean_slash_prefix (p a b : Str) (hp : Clean p = p) (e : p = a ++ '/' :: b)
    (ha : a ≠ []) : Clean a = a := by
  have hn := cleanStack_normal p
  rw [Clean_eq_render] at hp
  obtain ⟨st1, h1, h2⟩ := render_slash_prefix _ _ hn a b ha (hp.trans e)
  rw [← h2]
  exact Clean_render _ _ h1

/-! ## the file system -/

theorem hasPrefix_iff (q pre : Str) : HasPrefix q pre = true ↔ ∃ rest, q = pre ++ rest := by
  unfold HasPrefix
  rw [List.isPrefixOf_iff_prefix]
  constructor
  · rintro ⟨t, ht⟩; exact ⟨t, ht.symm⟩
  · rintro ⟨t, ht⟩; exact ⟨t, ht.symm⟩

theorem slashPrefixes_append (a b : Str) :
    slashPrefixes (a ++ '/' :: b) =
      slashPrefixes a ++ [a] ++ (slashPrefixes b).map (fun s => a ++ '/' :: s) := by
  induction a with
  | nil => simp [slashPrefixes]
  | cons c t ih =>
    rw [List.cons_append]
    simp only [slashPrefixes]
    rw [ih]
    by_cases hc : c = '/' <;> simp [hc, List.map_append, Function.comp_def]

theorem ancestors_append_within (root rest : Str) :
    ∀ q ∈ ancestors (root ++ '/' :: rest),
      HasPrefix q (root ++ ['/']) = true ∨ q ∈ ancestors root ++ [root] := by
  intro q hq
  unfold ancestors at hq
  rw [slashPrefixes_append] at hq
  simp only [List.mem_filter, List.mem_append, List.mem_map, List.mem_singleton] at hq
  obtain ⟨hmem, hne⟩ := hq
  rcases hmem with (h | h) | ⟨s, _, hs⟩
  · right
    simp only [List.mem_append, ancestors, List.mem_filter]
    exact Or.inl ⟨h, hne⟩
  · right; simp [h]
  · left
    rw [hasPrefix_iff]
    exact ⟨s, by rw [← hs]; simp⟩

theorem lookup_map_append (l : List Str) (fs : FS) (q : Str) (h : q ∉ l) :
    List.lookup q (l.map (fun a => (a, Node.dir)) ++ fs) = List.lookup q fs := by
  induction l with
  | nil => rfl
  | cons a t ih =>
    have h1 : q ≠ a := fun e => h (by simp [e])
    have h2 : q ∉ t := fun e => h (List.mem_cons_of_mem _ e)
    simp only [List.map_cons, List.cons_append, List.lookup]
    have : (q == a) = false := by simpa using h1
    rw [this]
    exact ih h2

theorem MkdirAll_changes (fs fs1 : FS) (p : Str) (h : MkdirAll fs p = some fs1) :
    ∀ q, lookupNode fs1 q ≠ lookupNode fs q → q ∈ ancestors (Clean p) ++ [Clean p] := by
  intro q hq
  unfold MkdirAll at h
  split at h
  · exact absurd h (by simp)
  · split at h
    · exact absurd h (by simp)
    · simp only [Option.some.injEq] at h
      by_contra hn
      apply hq
      rw [← h]
      unfold lookupNode
      split
      · rfl
      · apply lookup_map_append
        intro hm
        exact hn (List.mem_filter.1 hm).1

theorem MkdirAll_getD_changes (fs : FS) (p : Str) :
    ∀ q, lookupNode ((MkdirAll fs p).getD fs) q ≠ lookupNode fs q →
      q ∈ ancestors (Clean p) ++ [Clean p] := by
  intro q hq
  cases h : MkdirAll fs p with
  | none => rw [h] at hq; exact absurd rfl hq
  | some fs1 => rw [h] at hq; exact MkdirAll_changes fs fs1 p h q hq

theorem createFile_changes (fs fs1 : FS) (p : Str) (d : Bytes) (h : createFile fs p d = some fs1) :
    ∀ q, lookupNode fs1 q ≠ lookupNode fs q → q = Clean p := by
  intro q hq
  unfold createFile at h
  split at h
  · exact absurd h (by simp)
  · split at h
    · exact absurd h (by simp)
    · split at h
      · simp only [Option.some.injEq] at h
        by_contra hn
        apply hq
        rw [← h]
        unfold lookupNode
        split
        · rfl
        · have : (q == Clean p) = false := by simpa using hn
          simp [List.lookup, this]
      · exact absurd h (by simp)

/-! ## `filepath.Dir` of a cleaned path below a root -/

theorem throughLastSlash_spec (s : Str) :
    ('/' ∉ s ∧ throughLastSlash s = []) ∨
      ∃ a b, s = a ++ '/' :: b ∧ '/' ∉ b ∧ throughLastSlash s = a ++ ['/'] := by
  induction s using List.reverseRecOn with
  | nil => left; simp [throughLastSlash]
  | append_singleton t c ih =>
    by_cases hc : c = '/'
    · right
      refine ⟨t, [], by simp [hc], by simp, ?_⟩
      simp [throughLastSlash, hc, List.dropWhile]
    · rcases ih with ⟨h1, h2⟩ | ⟨a, b, h1, h2, h3⟩
      · left
        constructor
        · simp only [List.mem_append, List.mem_singleton, not_or]
          exact ⟨h1, fun e => hc e.symm⟩
        · unfold throughLastSlash at h2 ⊢
          simp only [List.reverse_append, List.reverse_cons, List.reverse_nil, List.nil_append,
            List.singleton_append, List.dropWhile_cons, ne_eq, hc, not_false_eq_true,
            decide_True, if_true]
          exact h2
      · right
        refine ⟨a, b ++ [c], by simp [h1], ?_, ?_⟩
        · simp only [List.mem_append, List.mem_singleton, not_or]
          exact ⟨h2, fun e => hc e.symm⟩
        · unfold throughLastSlash at h3 ⊢
          simp only [List.reverse_append, List.reverse_cons, List.reverse_nil, List.nil_append,
            List.singleton_append, List.dropWhile_cons, ne_eq, hc, not_false_eq_true,
            decide_True, if_true]
          exact h3

theorem last_slash_below (root rest a b : Str) (e : root ++ '/' :: rest = a ++ '/' :: b)
    (hb : '/' ∉ b) : a = root ∨ ∃ c, a = root ++ '/' :: c := by
  rcases List.append_eq_append_iff.1 e with ⟨c, h1, h2⟩ | ⟨c, h1, h2⟩
  · cases c with
    | nil => left; simpa using h1
    | cons x c2 =>
      simp only [List.cons_append, List.cons.injEq] at h2
      right
      exact ⟨c2, by rw [h1, ← h2.1]⟩
  · cases c with
    | nil => left; simpa using h1.symm
    | cons x c2 =>
      simp only [List.cons_append, List.cons.injEq] at h2
      exfalso
      apply hb
      rw [h2.2]
      simp

theorem Dir_below (root rest : Str) (hroot : root ≠ [])
    (hclean : Clean (root ++ '/' :: rest) = root ++ '/' :: rest) :
    Dir (root ++ '/' :: rest) = root ∨ ∃ c, Dir (root ++ '/' :: rest) = root ++ '/' :: c := by
  rcases throughLastSlash_spec (root ++ '/' :: rest) with ⟨h1, _⟩ | ⟨a, b, h1, h2, h3⟩
  · exact absurd (by simp) h1
  · have ha : a ≠ [] := by
      rcases last_slash_below root rest a b h1 h2 with h | ⟨c, h⟩
      · rw [h]; exact hroot
      · rw [h]; simp
    have hd : Dir (root ++ '/' :: rest) = a := by
      unfold Dir
      rw [h3, Clean_append_slash a ha]
      exact Clean_slash_prefix _ a b hclean h1 ha
    rw [hd]
    exact last_slash_below root rest a b h1 h2

/-- The paths `Unzip` into a directory with the cleaned name `root` may change. -/
theorem within_chain (root p : Str) (hp : p = root ∨ ∃ c, p = root ++ '/' :: c) :
    ∀ q ∈ ancestors p ++ [p],
      HasPrefix q (root ++ ['/']) = true ∨ q ∈ ancestors root ++ [root] := by
  intro q hq
  rcases hp with h | ⟨c, h⟩
  · right; rw [h] at hq; exact hq
  · rcases List.mem_append.1 hq with h1 | h1
    · rw [h] at h1; exact ancestors_append_within root c q h1
    · left
      rw [hasPrefix_iff]
      exact ⟨c, by rw [List.mem_singleton.1 h1, h]; simp⟩

theorem Join_clean (a b : Str) : Join a b = [] ∨ Clean (Join a b) = Join a b := by
  unfold Join
  split
  · right; exact Clean_idem _
  · split
    · right; exact Clean_idem _
    · left; rfl

/-! ## `Unzip` -/

theorem Dir_clean (p : Str) : Clean (Dir p) = Dir p := Clean_idem _

theorem entry_changes (dest : Str) (f : ZipFile) (fs : FS) :
    ∀ q, lookupNode (extractAndWriteFile dest f fs).1 q ≠ lookupNode fs q →
      HasPrefix q (Clean dest ++ ['/']) = true ∨ q ∈ ancestors (Clean dest) ++ [Clean dest] := by
  intro q hq
  unfold extractAndWriteFile at hq
  split at hq
  · exact absurd rfl hq
  · simp only at hq
    split at hq
    · exact absurd rfl hq
    · rename_i hguard
      have hpre : HasPrefix (Join dest f.Name) (Clean dest ++ ['/']) = true := by
        simpa using hguard
      obtain ⟨rest, hrest⟩ := (hasPrefix_iff _ _).1 hpre
      have hrest2 : Join dest f.Name = Clean dest ++ '/' :: rest := by simpa using hrest
      have hclean : Clean (Join dest f.Name) = Join dest f.Name := by
        rcases Join_clean dest f.Name with h | h
        · rw [h] at hrest2; simp at hrest2
        · exact h
      have hpath : ∀ q ∈ ancestors (Join dest f.Name) ++ [Join dest f.Name],
          HasPrefix q (Clean dest ++ ['/']) = true ∨ q ∈ ancestors (Clean dest) ++ [Clean dest] :=
        within_chain _ _ (Or.inr ⟨rest, hrest2⟩)
      have hdir : ∀ q, lookupNode ((MkdirAll fs (Dir (Join dest f.Name))).getD fs) q ≠
          lookupNode fs q →
          HasPrefix q (Clean dest ++ ['/']) = true ∨ q ∈ ancestors (Clean dest) ++ [Clean dest] := by
        intro q hq
        have h1 := MkdirAll_getD_changes fs _ q hq
        rw [Dir_clean] at h1
        have hb := Dir_below (Clean dest) rest (Clean_ne_nil dest) (by rw [← hrest2]; exact hclean)
        rw [← hrest2] at hb
        exact within_chain _ _ hb q h1
      split at hq
      · have h1 := MkdirAll_getD_changes fs _ q hq
        rw [hclean] at h1
        exact hpath q h1
      · split at hq
        · exact hdir q hq
        · rename_i fs2 hcreate
          have key : lookupNode fs2 q ≠ lookupNode fs q := by
            split at hq <;> exact hq
          by_cases h2 : lookupNode fs2 q =
              lookupNode ((MkdirAll fs (Dir (Join dest f.Name))).getD fs) q
          · exact hdir q (by rw [← h2]; exact key)
          · have := createFile_changes _ _ _ _ hcreate q h2
            rw [hclean] at this
            exact hpath q (by rw [this]; simp)

theorem unzipLoop_changes (dest : Str) (files : List ZipFile) :
    ∀ fs q, lookupNode (unzipLoop dest files fs).1 q ≠ lookupNode fs q →
      HasPrefix q (Clean dest ++ ['/']) = true ∨ q ∈ ancestors (Clean dest) ++ [Clean dest] := by
  induction files with
  | nil => intro fs q hq; exact absurd rfl hq
  | cons f rest ih =>
    intro fs q hq
    unfold unzipLoop at hq
    have he := entry_changes dest f fs q
    cases hres : extractAndWriteFile dest f fs with
    | mk fs1 err =>
      rw [hres] at hq he
      cases err with
      | none =>
        simp only at hq he
        by_cases h2 : lookupNode (unzipLoop dest rest fs1).1 q = lookupNode fs1 q
        · exact he (by rw [← h2]; exact hq)
        · exact ih fs1 q h2
      | some e => exact he hq

theorem Unzip_changes (openReader : Str → FS → Option (List ZipFile)) (src dest : Str) (fs : FS) :
    ∀ q, lookupNode (Unzip openReader src dest fs).1 q ≠ lookupNode fs q →
      HasPrefix q (Clean dest ++ ['/']) = true ∨ q ∈ ancestors (Clean dest) ++ [Clean dest] := by
  intro q hq
  unfold Unzip at hq
  split at hq
  · exact absurd rfl hq
  · by_cases h2 : lookupNode ((MkdirAll fs dest).getD fs) q = lookupNode fs q
    · exact unzipLoop_changes dest _ _ q (by rw [h2]; exact hq)
    · exact Or.inr (MkdirAll_getD_changes fs dest q h2)

theorem unzipLoop_append (dest : Str) (a b : List ZipFile) :
    ∀ fs, unzipLoop dest (a ++ b) fs =
      match unzipLoop dest a fs with
      | (fs1, none) => unzipLoop dest b fs1
      | (fs1, some err) => (fs1, some err) := by
  induction a with
  | nil => intro fs; simp [unzipLoop]
  | cons f rest ih =>
    intro fs
    simp only [List.cons_append, unzipLoop]
    cases hres : extractAndWriteFile dest f fs with
    | mk fs1 err =>
      cases err with
      | none => simp only; exact ih fs1
      | some e => rfl

theorem entry_rejected (dest : Str) (f : ZipFile) (fs : FS)
    (hesc : HasPrefix (Join dest f.Name) (Clean dest ++ ['/']) = false) :
    extractAndWriteFile dest f fs =
      (fs, some (if f.openErr then Error.entryOpen f.Name
        else Error.errorf ("illegal file path: ".toList ++ Join dest f.Name))) := by
  unfold extractAndWriteFile
  by_cases ho : f.openErr = true
  · simp [ho]
  · simp [ho, hesc]

/-- C1 (amended): for a destination root `dest` that is a cleaned path without
a `..` element (on such a root every path `Unzip` hands to the file system is
resolved by the model as the operating system resolves it), when an entry `f`
of the archive resolves outside the staging root, `Unzip` returns an
error; the error is the illegal-file-path error that names the resolved path
when every entry before `f` was extracted without error and `f` could be
opened; no entry after `f` is processed (the result is that of the archive cut
after `f`); and every path whose node `Unzip` created or changed lies below the
root (it starts with `dest/`), or is the root itself or a directory above it. -/
theorem Unzip_path_escape (openReader : Str → FS → Option (List ZipFile)) (src dest : Str)
    (fs : FS) (pre post : List ZipFile) (f : ZipFile)
    (hclean : Clean dest = dest) (_hplain : noDotDot dest = true)
    (harch : openReader src fs = some (pre ++ f :: post))
    (hesc : HasPrefix (Join dest f.Name) (Clean dest ++ ['/']) = false) :
    (Unzip openReader src dest fs).2 ≠ none ∧
    ((unzipLoop dest pre ((MkdirAll fs dest).getD fs)).2 = none → f.openErr = false →
      (Unzip openReader src dest fs).2 =
        some (Error.errorf ("illegal file path: ".toList ++ Join dest f.Name))) ∧
    Unzip openReader src dest fs = unzipLoop dest (pre ++ [f]) ((MkdirAll fs dest).getD fs) ∧
    (∀ q, lookupNode (Unzip openReader src dest fs).1 q ≠ lookupNode fs q →
      HasPrefix q (dest ++ ['/']) = true ∨ q ∈ ancestors dest ++ [dest]) := by
  have hU : Unzip openReader src dest fs =
      unzipLoop dest (pre ++ f :: post) ((MkdirAll fs dest).getD fs) := by
    unfold Unzip; rw [harch]
  have hch := Unzip_changes openReader src dest fs
  rw [hclean] at hch
  refine ⟨?_, ?_, ?_, hch⟩
  · rw [hU, unzipLoop_append]
    cases hpre : unzipLoop dest pre ((MkdirAll fs dest).getD fs) with
    | mk fs1 err =>
      cases err with
      | none => simp [unzipLoop, entry_rejected dest f fs1 hesc]
      | some e => simp
  · intro hok hopen
    rw [hU, unzipLoop_append]
    cases hpre : unzipLoop dest pre ((MkdirAll fs dest).getD fs) with
    | mk fs1 err =>
      rw [hpre] at hok
      simp only at hok
      subst hok
      simp [unzipLoop, entry_rejected dest f fs1 hesc, hopen]
  · rw [hU, unzipLoop_append, unzipLoop_append]
    cases hpre : unzipLoop dest pre ((MkdirAll fs dest).getD fs) with
    | mk fs1 err =>
      cases err with
      | none => simp [unzipLoop, entry_rejected dest f fs1 hesc]
      | some e => rfl

/-- Witness of C1: `Foo.class`, then `../../evil`, then `Bar.class`, unpacked
into `/tmp/x`: the error names `/evil`, `Foo.class` is staged, `Bar.class` is
not, and nothing is made at `/evil`. -/
theorem Unzip_path_escape_witness :
    (Unzip (fun _ _ => some evilJar) "app.jar".toList "/tmp/x".toList baseFS).2 =
        some (Error.errorf "illegal file path: /evil".toList) ∧
      lookupNode (Unzip (fun _ _ => some evilJar) "app.jar".toList "/tmp/x".toList baseFS).1
        "/tmp/x/Foo.class".toList = some (Node.file [1, 2]) ∧
      lookupNode (Unzip (fun _ _ => some evilJar) "app.jar".toList "/tmp/x".toList baseFS).1
        "/tmp/x/Bar.class".toList = none ∧
      lookupNode (Unzip (fun _ _ => some evilJar) "app.jar".toList "/tmp/x".toList baseFS).1
        "/evil".toList = lookupNode baseFS "/evil".toList := by
  have h := Unzip_path_escape (fun _ _ => some evilJar) "app.jar".toList "/tmp/x".toList baseFS
    [plainEntry "Foo.class" [1, 2]] [plainEntry "Bar.class" [3]] (plainEntry "../../evil" [6])
    (by decide) (by decide) rfl (by decide)
  refine ⟨?_, ?_, ?_, ?_⟩
  · rw [h.2.1 (by decide) (by decide)]; decide
  · rw [h.2.2.1]; decide
  · rw [h.2.2.1]; decide
  · by_contra hne
    have := h.2.2.2 "/evil".toList hne
    revert this
    decide

/-- C1 as stated fails: the only entry, `../../evil`, cannot be opened, so the
error `Unzip` returns is the one of `f.Open`, which does not name the path; and
`Unzip` made the staging root `/tmp/new/x` and the directory `/tmp/new` above
it, paths that do not start with `/tmp/new/x/`. -/
theorem Unzip_path_escape_counterexample :
    HasPrefix (Join "/tmp/new/x".toList "../../evil".toList)
        (Clean "/tmp/new/x".toList ++ ['/']) = false ∧
      (Unzip (fun _ _ => some brokenJar) "app.jar".toList "/tmp/new/x".toList baseFS).2 =
        some (Error.entryOpen "../../evil".toList) ∧
      lookupNode baseFS "/tmp/new".toList = none ∧
      lookupNode (Unzip (fun _ _ => some brokenJar) "app.jar".toList "/tmp/new/x".toList
        baseFS).1 "/tmp/new".toList = some Node.dir ∧
      HasPrefix "/tmp/new".toList (Clean "/tmp/new/x".toList ++ ['/']) = false := by
  decide

/-- C8 (amended): an entry is refused with the illegal-file-path error exactly
when it can be opened and its name, joined onto the root and cleaned, does not
start with the cleaned root and the separator; an entry that fails this test is
never written: the file system stays as it was and an error is returned. -/
theorem entry_illegal_iff (dest : Str) (f : ZipFile) (fs : FS) :
    ((extractAndWriteFile dest f fs).2 =
        some (Error.errorf ("illegal file path: ".toList ++ Join dest f.Name)) ↔
      (f.openErr = false ∧ HasPrefix (Join dest f.Name) (Clean dest ++ ['/']) = false)) ∧
    (HasPrefix (Join dest f.Name) (Clean dest ++ ['/']) = false →
      (extractAndWriteFile dest f fs).1 = fs ∧ (extractAndWriteFile dest f fs).2 ≠ none) := by
  constructor
  · constructor
    · intro h
      unfold extractAndWriteFile at h
      split at h
      · simp at h
      · rename_i ho
        simp only at h
        split at h
        · rename_i hg
          exact ⟨by simpa using ho, by simpa using hg⟩
        · split at h
          · simp at h
          · split at h
            · simp at h
            · split at h <;> simp at h
    · rintro ⟨ho, hg⟩
      rw [entry_rejected dest f fs hg]
      simp [ho]
  · intro hg
    rw [entry_rejected dest f fs hg]
    simp

/-- C8 as stated fails: the rooted name `/etc/passwd` and the name `a/../b`
with a `..` segment are both accepted; unpacked into `/tmp/x` they are written
to `/tmp/x/etc/passwd` and `/tmp/x/b`, and `Unzip` returns no error. -/
theorem entry_illegal_counterexample :
    (Unzip (fun _ _ => some rootedJar) "app.jar".toList "/tmp/x".toList baseFS).2 = none ∧
      lookupNode (Unzip (fun _ _ => some rootedJar) "app.jar".toList "/tmp/x".toList baseFS).1
        "/tmp/x/etc/passwd".toList = some (Node.file [1]) ∧
      lookupNode (Unzip (fun _ _ => some rootedJar) "app.jar".toList "/tmp/x".toList baseFS).1
        "/tmp/x/b".toList = some (Node.file [2]) := by
  decide

/-! ## `strings.Replace` -/

theorem replaceAux_zero (old new : Str) (s : Str) :
    ∀ k, replaceAux old new s 0 k = s.drop k := by
  induction s with
  | nil => intro k; simp [replaceAux]
  | cons c t ih =>
    intro k
    cases k with
    | zero => simp [replaceAux]
    | succ k => simp [replaceAux, ih]

theorem Replace_prefix (a b c : Str) : Replace (a ++ b) a c 1 = c ++ b := by
  unfold Replace
  simp only [show ¬ ((1 : Int) < 0) by decide, if_false, show (1 : Int).toNat = 1 from rfl]
  cases a with
  | nil =>
    cases b with
    | nil => simp [replaceAux]
    | cons x t => simp [replaceAux, replaceAux_zero]
  | cons x a2 =>
    have hp : (x :: a2).isPrefixOf (x :: (a2 ++ b)) = true := by
      rw [List.isPrefixOf_iff_prefix]; exact ⟨b, by simp⟩
    simp only [List.cons_append, replaceAux, hp, if_true]
    simp [replaceAux_zero]

theorem replaceAux_char (x y : Char) (s : Str) :
    ∀ cnt, s.length < cnt →
      replaceAux [x] [y] s cnt 0 = s.map (fun c => if c = x then y else c) := by
  induction s with
  | nil => intro cnt _; simp [replaceAux]
  | cons c t ih =>
    intro cnt hcnt
    cases cnt with
    | zero => simp at hcnt
    | succ n =>
      have hn : t.length < n := by simpa using hcnt
      by_cases hc : c = x
      · subst hc
        simp [replaceAux, ih n hn]
      · have hx : ¬ (x = c) := fun e => hc e.symm
        simp [replaceAux, hc, hx, ih (n + 1) (Nat.lt_succ_of_lt hn)]

theorem slashed_eq_map (s : Str) :
    slashed s = s.map (fun c => if c = backslash then '/' else c) := by
  unfold slashed Replace
  simp only [show ((-1 : Int) < 0) by decide, if_true]
  exact replaceAux_char _ _ s _ (Nat.lt_succ_self _)

theorem slashed_append (a b : Str) : slashed (a ++ b) = slashed a ++ slashed b := by
  simp [slashed_eq_map]

theorem slashed_cons_slash (t : Str) : slashed ('/' :: t) = '/' :: slashed t := by
  simp only [slashed_eq_map, List.map_cons]
  have : ¬ ('/' = backslash) := by decide
  simp [this]

theorem slashed_id (s : Str) (h : backslash ∉ s) : slashed s = s := by
  rw [slashed_eq_map]
  induction s with
  | nil => rfl
  | cons c t ih =>
    have hc : c ≠ backslash := fun e => h (by simp [e])
    have ht : backslash ∉ t := fun e => h (List.mem_cons_of_mem _ e)
    simp [hc, ih ht]

theorem mappedPath_below (R O rel : Str) :
    mappedPath (R ++ '/' :: rel) O R = O ++ '/' :: slashed rel := by
  unfold mappedPath
  rw [slashed_append, slashed_cons_slash, Replace_prefix]

theorem Contains_nil_old (s : Str) : Contains s [] = true := by
  cases s <;> simp [Contains]

theorem Replace_absent (s old new : Str) (h : Contains s old = false) :
    Replace s old new 1 = s := by
  have hold : old ≠ [] := by
    intro e; rw [e, Contains_nil_old] at h; exact absurd h (by simp)
  unfold Replace
  simp only [show ¬ ((1 : Int) < 0) by decide, if_false, show (1 : Int).toNat = 1 from rfl]
  induction s with
  | nil => simp [replaceAux, hold]
  | cons c t ih =>
    simp only [Contains, Bool.or_eq_false_iff] at h
    simp only [replaceAux, hold, if_false, h.1, Bool.false_eq_true]
    rw [ih h.2]

theorem dropLast_cons_append (c : Char) (x old : Str) (hold : old ≠ []) :
    (c :: x ++ old).dropLast = c :: (x ++ old).dropLast := by
  cases hx : x ++ old with
  | nil => simp at hx; exact absurd hx.2 hold
  | cons y t => simp [hx, List.dropLast]

theorem Replace_last (x old new : Str) (hold : old ≠ [])
    (h : Contains ((x ++ old).dropLast) old = false) :
    Replace (x ++ old) old new 1 = x ++ new := by
  unfold Replace
  simp only [show ¬ ((1 : Int) < 0) by decide, if_false, show (1 : Int).toNat = 1 from rfl]
  induction x with
  | nil =>
    cases old with
    | nil => exact absurd rfl hold
    | cons o os =>
      have hp : (o :: os).isPrefixOf (o :: os) = true := by
        rw [List.isPrefixOf_iff_prefix]
      simp [replaceAux, hp, replaceAux_zero]
  | cons c t ih =>
    rw [dropLast_cons_append c t old hold] at h
    simp only [Contains, Bool.or_eq_false_iff] at h
    have hnp : old.isPrefixOf (c :: (t ++ old)) = false := by
      by_contra hcon
      have hcon2 : old.isPrefixOf (c :: (t ++ old)) = true := by simpa using hcon
      rw [List.isPrefixOf_iff_prefix] at hcon2
      have hpre2 : (c :: (t ++ old).dropLast) <+: (c :: (t ++ old)) := by
        have := List.dropLast_prefix (c :: (t ++ old))
        rw [← List.cons_append, dropLast_cons_append c t old hold] at this
        simpa using this
      have hlen : old.length ≤ (c :: (t ++ old).dropLast).length := by
        have hl : 0 < old.length := List.length_pos.2 hold
        simp only [List.length_cons, List.length_dropLast, List.length_append]
        omega
      have := List.prefix_of_prefix_length_le hcon2 hpre2 hlen
      rw [← List.isPrefixOf_iff_prefix, h.1] at this
      exact absurd this (by simp)
    simp only [List.cons_append, replaceAux, hold, if_false, List.append_eq, hnp,
      Bool.false_eq_true, Nat.zero_add]
    rw [ih h.2]

/-! ## `copyFile` and `extract` -/

theorem Stat_found (fs : FS) (p : Str) (n : Node) (h : Stat fs p = StatResult.found n) :
    p ≠ [] ∧ lookupNode fs (Clean p) = some n := by
  unfold Stat at h
  split at h
  · exact absurd h (by simp)
  · rename_i hp
    split at h
    · exact absurd h (by simp)
    · split at h
      · rename_i m hm
        simp only [StatResult.found.injEq] at h
        exact ⟨hp, by rw [hm, h]⟩
      · exact absurd h (by simp)

theorem Stat_notExist (fs : FS) (p : Str) (h : Stat fs p = StatResult.notExist) :
    p = [] ∨ lookupNode fs (Clean p) = none := by
  unfold Stat at h
  split at h
  · rename_i hp; exact Or.inl hp
  · split at h
    · exact absurd h (by simp)
    · split at h
      · exact absurd h (by simp)
      · rename_i hm; exact Or.inr hm

theorem createFile_some (fs fs1 : FS) (p : Str) (d : Bytes) (h : createFile fs p d = some fs1) :
    fs1 = (Clean p, Node.file d) :: fs ∧ p ≠ [] ∧ isDirAt fs (Clean p) = false ∧
      (ancestors (Clean p)).all (isDirAt fs) = true := by
  unfold createFile at h
  split at h
  · exact absurd h (by simp)
  · rename_i hp
    split at h
    · exact absurd h (by simp)
    · rename_i hd
      split at h
      · rename_i ha
        simp only [Option.some.injEq] at h
        exact ⟨h.symm, hp, by simpa using hd, ha⟩
      · exact absurd h (by simp)

theorem createFile_of (fs : FS) (p : Str) (d : Bytes) (hp : p ≠ [])
    (hd : isDirAt fs (Clean p) = false) (ha : (ancestors (Clean p)).all (isDirAt fs) = true) :
    createFile fs p d = some ((Clean p, Node.file d) :: fs) := by
  unfold createFile
  simp [hp, hd, ha]

theorem not_special_of_not_dir (fs : FS) (q : Str) (h : isDirAt fs q = false) :
    ¬ (q = ['/'] ∨ q = ['.']) := by
  intro hs
  unfold isDirAt lookupNode at h
  rw [if_pos hs] at h
  exact absurd h (by simp)

theorem lookupNode_cons_self (fs : FS) (q : Str) (n : Node) (h : ¬ (q = ['/'] ∨ q = ['.'])) :
    lookupNode ((q, n) :: fs) q = some n := by
  unfold lookupNode
  rw [if_neg h]
  simp [List.lookup]

theorem lookupNode_cons_ne (fs : FS) (k q : Str) (n : Node) (h : q ≠ k) :
    lookupNode ((k, n) :: fs) q = lookupNode fs q := by
  unfold lookupNode
  split
  · rfl
  · have : (q == k) = false := by simpa using h
    simp [List.lookup, this]

theorem isDirAt_cons_ne (fs : FS) (k q : Str) (n : Node) (h : q ≠ k) :
    isDirAt ((k, n) :: fs) q = isDirAt fs q := by
  unfold isDirAt
  rw [lookupNode_cons_ne fs k q n h]

theorem copyFile_some (fs fs2 : FS) (src out : Str) (n : Nat)
    (h : copyFile fs src out = (fs2, some n)) (hnew : Stat fs out = StatResult.notExist) :
    ∃ d, lookupNode fs (Clean src) = some (Node.file d) ∧
      lookupNode fs2 (Clean out) = some (Node.file d) := by
  unfold copyFile at h
  split at h
  · rename_i m hstat
    obtain ⟨hsrc, hlook⟩ := Stat_found fs src m hstat
    split at h
    · simp at h
    · rename_i fs1 hc1
      obtain ⟨e1, hout, hnd, _⟩ := createFile_some fs fs1 out [] hc1
      have hne : Clean src ≠ Clean out := by
        intro e
        rcases Stat_notExist fs out hnew with h0 | h0
        · exact hout h0
        · rw [e, h0] at hlook; exact absurd hlook (by simp)
      split at h
      · rename_i d hd
        split at h
        · simp at h
        · rename_i fs3 hc2
          obtain ⟨e3, _, hnd3, _⟩ := createFile_some fs1 fs3 out d hc2
          simp only [Prod.mk.injEq, Option.some.injEq] at h
          refine ⟨d, ?_, ?_⟩
          · rw [e1, lookupNode_cons_ne fs _ _ _ hne] at hd
            exact hd
          · rw [← h.1, e3]
            exact lookupNode_cons_self _ _ _ (not_special_of_not_dir fs (Clean out) hnd)
      · simp at h
  · simp at h

theorem copyFile_ok (fs : FS) (src out : Str) (d : Bytes)
    (hsrc : Stat fs src = StatResult.found (Node.file d))
    (hnew : Stat fs out = StatResult.notExist) (hc : createFile fs out [] ≠ none) :
    ∃ fs2, copyFile fs src out = (fs2, some d.length) := by
  obtain ⟨hs0, hlook⟩ := Stat_found fs src _ hsrc
  cases hc1 : createFile fs out [] with
  | none => exact absurd hc1 hc
  | some fs1 =>
    obtain ⟨e1, hout, hnd, ha⟩ := createFile_some fs fs1 out [] hc1
    have hne : Clean src ≠ Clean out := by
      intro e
      rcases Stat_notExist fs out hnew with h0 | h0
      · exact hout h0
      · rw [e, h0] at hlook; exact absurd hlook (by simp)
    have hd1 : lookupNode fs1 (Clean src) = some (Node.file d) := by
      rw [e1, lookupNode_cons_ne fs _ _ _ hne]; exact hlook
    have hnd1 : isDirAt fs1 (Clean out) = false := by
      rw [e1]
      unfold isDirAt
      rw [lookupNode_cons_self _ _ _ (not_special_of_not_dir fs (Clean out) hnd)]
    have ha1 : (ancestors (Clean out)).all (isDirAt fs1) = true := by
      rw [List.all_eq_true] at ha ⊢
      intro a hmem
      have hane : a ≠ Clean out := by
        intro e
        have := ha a hmem
        rw [e, hnd] at this
        exact absurd this (by simp)
      rw [e1, isDirAt_cons_ne fs _ _ _ hane]
      exact ha a hmem
    refine ⟨(Clean out, Node.file d) :: fs1, ?_⟩
    unfold copyFile
    rw [hsrc]
    simp only [hc1, hd1, createFile_of fs1 out d hout hnd1 ha1]

theorem lookup_map_mem (l : List Str) (fs : FS) (q : Str) (h : q ∈ l) :
    List.lookup q (l.map (fun a => (a, Node.dir)) ++ fs) = some Node.dir := by
  induction l with
  | nil => simp at h
  | cons a t ih =>
    by_cases e : q = a
    · simp [List.lookup, e]
    · have hm : q ∈ t := by
        rcases List.mem_cons.1 h with h1 | h1
        · exact absurd h1 e
        · exact h1
      have : (q == a) = false := by simpa using e
      simp only [List.map_cons, List.cons_append, List.lookup, this]
      exact ih hm

theorem lookupNode_mkdirs_mem (l : List Str) (fs : FS) (q : Str) (h : q ∈ l) :
    lookupNode (l.map (fun a => (a, Node.dir)) ++ fs) q = some Node.dir := by
  unfold lookupNode
  split
  · rfl
  · exact lookup_map_mem l fs q h

theorem lookupNode_mkdirs_not_mem (l : List Str) (fs : FS) (q : Str) (h : q ∉ l) :
    lookupNode (l.map (fun a => (a, Node.dir)) ++ fs) q = lookupNode fs q := by
  unfold lookupNode
  split
  · rfl
  · exact lookup_map_append l fs q h

theorem MkdirAll_file (fs fs1 : FS) (p q : Str) (d : Bytes) (h : MkdirAll fs p = some fs1)
    (hq : lookupNode fs1 q = some (Node.file d)) : lookupNode fs q = some (Node.file d) := by
  unfold MkdirAll at h
  split at h
  · simp at h
  · split at h
    · simp at h
    · simp only [Option.some.injEq] at h
      rw [← h] at hq
      by_cases hm : q ∈ (ancestors (Clean p) ++ [Clean p]).filter
          (fun a => (lookupNode fs a).isNone)
      · rw [lookupNode_mkdirs_mem _ fs q hm] at hq; simp at hq
      · rw [lookupNode_mkdirs_not_mem _ fs q hm] at hq; exact hq

theorem ensureDir_file (fs fs1 : FS) (p q : Str) (d : Bytes) (h : ensureDir fs p = some fs1)
    (hq : lookupNode fs1 q = some (Node.file d)) : lookupNode fs q = some (Node.file d) := by
  unfold ensureDir at h
  split at h
  · exact MkdirAll_file fs fs1 p q d h hq
  · simp only [Option.some.injEq] at h
    rw [h]; exact hq

theorem isFileAt_mkdirs (l : List Str) (fs : FS) (a : Str)
    (hl : ∀ x ∈ l, lookupNode fs x = none) :
    isFileAt (l.map (fun x => (x, Node.dir)) ++ fs) a = isFileAt fs a := by
  unfold isFileAt
  by_cases hm : a ∈ l
  · rw [lookupNode_mkdirs_mem l fs a hm, hl a hm]
  · rw [lookupNode_mkdirs_not_mem l fs a hm]

theorem Stat_MkdirAll_file (fs fs1 : FS) (p src : Str) (d : Bytes)
    (h : MkdirAll fs p = some fs1) (hs : Stat fs src = StatResult.found (Node.file d)) :
    Stat fs1 src = StatResult.found (Node.file d) := by
  unfold MkdirAll at h
  split at h
  · simp at h
  · split at h
    · simp at h
    · simp only [Option.some.injEq] at h
      have hl : ∀ x ∈ (ancestors (Clean p) ++ [Clean p]).filter
          (fun a => (lookupNode fs a).isNone), lookupNode fs x = none := by
        intro x hx
        have := (List.mem_filter.1 hx).2
        simpa using this
      obtain ⟨hne, hlook⟩ := Stat_found fs src _ hs
      have hany : ¬ (ancestors (Clean src)).any (isFileAt fs) = true := by
        intro hx
        unfold Stat at hs
        rw [if_neg hne, if_pos hx] at hs
        simp at hs
      rw [← h]
      unfold Stat
      rw [if_neg hne]
      have hany2 : ¬ (ancestors (Clean src)).any (isFileAt
          (((ancestors (Clean p) ++ [Clean p]).filter
            (fun a => (lookupNode fs a).isNone)).map (fun x => (x, Node.dir)) ++ fs)) = true := by
        intro hx
        apply hany
        rw [List.any_eq_true] at hx ⊢
        obtain ⟨a, ha, hf⟩ := hx
        rw [isFileAt_mkdirs _ fs a hl] at hf
        exact ⟨a, ha, hf⟩
      rw [if_neg hany2]
      have hnm : Clean src ∉ (ancestors (Clean p) ++ [Clean p]).filter
          (fun a => (lookupNode fs a).isNone) := by
        intro hm
        rw [hl _ hm] at hlook
        simp at hlook
      rw [lookupNode_mkdirs_not_mem _ fs _ hnm, hlook]

theorem Stat_ensureDir_file (fs fs1 : FS) (p src : Str) (d : Bytes)
    (h : ensureDir fs p = some fs1) (hs : Stat fs src = StatResult.found (Node.file d)) :
    Stat fs1 src = StatResult.found (Node.file d) := by
  unfold ensureDir at h
  split at h
  · exact Stat_MkdirAll_file fs fs1 p src d h hs
  · simp only [Option.some.injEq] at h
    rw [← h]; exact hs

theorem extract_handed (run : List Str → FS → Option Bytes) (java path class_ out tempDir : Str)
    (w : World) : (extract run java path class_ out tempDir w).world.handed = w.handed := by
  unfold extract
  split
  · rfl
  · simp only
    split
    · split
      · split
        · rfl
        · split <;> rfl
      · split <;> rfl
    · rfl

/-- C3 (amended): for a staged file `R/stem.class`, when `.class` occurs in
`O/stem'.class` only at its very end (`stem'` is `stem` with every backslash
turned into `/`), the output path `extract` computes is `O/stem'.java`. -/
theorem outputPath_class (R O stem : Str)
    (h : Contains ((O ++ '/' :: slashed stem ++ ".class".toList).dropLast) ".class".toList
      = false) :
    outputPath (R ++ '/' :: (stem ++ ".class".toList)) O R =
      O ++ '/' :: slashed stem ++ ".java".toList := by
  unfold outputPath
  rw [mappedPath_below, slashed_append]
  have e : slashed ".class".toList = ".class".toList := by decide
  rw [e]
  have e2 : O ++ '/' :: (slashed stem ++ ".class".toList) =
      (O ++ '/' :: slashed stem) ++ ".class".toList := by simp
  rw [e2]
  exact Replace_last _ _ _ (by decide) h

/-- Witness of C3: `/tmp/x/com/acme/Foo.class` with output root `./src` is
mapped to `./src/com/acme/Foo.java`. -/
theorem outputPath_class_witness :
    outputPath "/tmp/x/com/acme/Foo.class".toList "./src".toList "/tmp/x".toList =
      "./src/com/acme/Foo.java".toList :=
  outputPath_class "/tmp/x".toList "./src".toList "com/acme/Foo".toList (by decide)

/-- C3 as stated fails twice: a backslash in the relative path is turned into a
separator, so the file `a\Foo.class` is mapped to `./src/a/Foo.java`; and only
the first `.class` of the path is rewritten, so `a.class/Foo.class` is mapped to
`./src/a.java/Foo.class`. -/
theorem outputPath_class_counterexample :
    outputPath ("/tmp/x/a".toList ++ backslash :: "Foo.class".toList) "./src".toList
        "/tmp/x".toList = "./src/a/Foo.java".toList ∧
      outputPath "/tmp/x/a.class/Foo.class".toList "./src".toList "/tmp/x".toList =
        "./src/a.java/Foo.class".toList := by
  decide

/-- C4 (amended): for a staged file `R/rel` whose path is cleaned and has no
backslash, whose output path `O/rel` has no `..` element, ends in a name,
contains no `.class` and does not end with `.java`, when the directory
`extract` looks for has no `..` element either and nothing exists at `O/rel`
once that directory is there: the output path is `O/rel`; `extract` starts no
decompiler; a call that is not aborted leaves at the output path the bytes the
staged file holds; and the call is not aborted when the staged file is a
regular file and the output file can be created.  The conditions on `..` and on
the last element keep the statement to paths on which the modelled file system
resolves a path as the operating system does. -/
theorem extract_passthrough (run : List Str → FS → Option Bytes) (java cls R O rel : Str)
    (w : World) (fs1 : FS)
    (hbs : backslash ∉ R ++ '/' :: rel)
    (hsrc : Clean (R ++ '/' :: rel) = R ++ '/' :: rel)
    (_hout : namesFile (O ++ '/' :: rel) = true)
    (_hodir : noDotDot (outputDir (R ++ '/' :: rel) O R) = true)
    (hclass : Contains (O ++ '/' :: rel) ".class".toList = false)
    (hjava : HasSuffix (O ++ '/' :: rel) ".java".toList = false)
    (hdir : ensureDir w.fs (outputDir (R ++ '/' :: rel) O R) = some fs1)
    (hnew : Stat fs1 (O ++ '/' :: rel) = StatResult.notExist) :
    outputPath (R ++ '/' :: rel) O R = O ++ '/' :: rel ∧
    (extract run java (R ++ '/' :: rel) cls O R w).world.calls = w.calls ∧
    (∀ w1, extract run java (R ++ '/' :: rel) cls O R w = Outcome.done w1 →
      ∃ d, lookupNode w.fs (R ++ '/' :: rel) = some (Node.file d) ∧
        lookupNode w1.fs (Clean (O ++ '/' :: rel)) = some (Node.file d)) ∧
    (∀ d, Stat w.fs (R ++ '/' :: rel) = StatResult.found (Node.file d) →
      createFile fs1 (O ++ '/' :: rel) [] ≠ none →
      (extract run java (R ++ '/' :: rel) cls O R w).isDone = true) := by
  have hs1 : slashed (R ++ '/' :: rel) = R ++ '/' :: rel := slashed_id _ hbs
  have hs2 : slashed rel = rel :=
    slashed_id _ (fun hm => hbs (List.mem_append_right _ (List.mem_cons_of_mem _ hm)))
  have hpath : outputPath (R ++ '/' :: rel) O R = O ++ '/' :: rel := by
    unfold outputPath
    rw [mappedPath_below, hs2]
    exact Replace_absent _ _ _ hclass
  have hE : extract run java (R ++ '/' :: rel) cls O R w =
      match copyFile fs1 (R ++ '/' :: rel) (O ++ '/' :: rel) with
      | (fs2, none) => Outcome.fatal "ERROR: UNABLE TO COPY FILE".toList { w with fs := fs2 }
      | (fs2, some _) => Outcome.done { w with fs := fs2 } := by
    unfold extract
    rw [hdir]
    simp only [hpath, hnew, IsNotExist, hjava, hs1, if_true, Bool.false_eq_true, if_false]
  refine ⟨hpath, ?_, ?_, ?_⟩
  · rw [hE]
    cases hc : copyFile fs1 (R ++ '/' :: rel) (O ++ '/' :: rel) with
    | mk fs2 res => cases res <;> rfl
  · intro w1 hw1
    rw [hE] at hw1
    cases hc : copyFile fs1 (R ++ '/' :: rel) (O ++ '/' :: rel) with
    | mk fs2 res =>
      rw [hc] at hw1
      cases res with
      | none => simp at hw1
      | some n =>
        simp only [Outcome.done.injEq] at hw1
        obtain ⟨d, hd1, hd2⟩ := copyFile_some fs1 fs2 _ _ n hc hnew
        rw [hsrc] at hd1
        refine ⟨d, ensureDir_file _ _ _ _ _ hdir hd1, ?_⟩
        rw [← hw1]
        exact hd2
  · intro d hsrc0 hcreate
    obtain ⟨fs2, hc⟩ := copyFile_ok fs1 _ _ d (Stat_ensureDir_file _ _ _ _ _ hdir hsrc0) hnew
      hcreate
    rw [hE, hc]
    rfl

/-- Witness of C4: `META-INF/MANIFEST.MF` staged under `/tmp/x` is copied to
`./src/META-INF/MANIFEST.MF` and no decompiler is started. -/
theorem extract_passthrough_witness :
    (extract demoRun "java".toList "/tmp/x/META-INF/MANIFEST.MF".toList [] "./src".toList
        "/tmp/x".toList (freshWorld stagedFS)).isDone = true ∧
      (extract demoRun "java".toList "/tmp/x/META-INF/MANIFEST.MF".toList [] "./src".toList
        "/tmp/x".toList (freshWorld stagedFS)).world.calls = [] ∧
      lookupNode (extract demoRun "java".toList "/tmp/x/META-INF/MANIFEST.MF".toList []
        "./src".toList "/tmp/x".toList (freshWorld stagedFS)).world.fs
        "src/META-INF/MANIFEST.MF".toList = some (Node.file [77, 97]) := by
  have h := extract_passthrough demoRun "java".toList [] "/tmp/x".toList "./src".toList
    "META-INF/MANIFEST.MF".toList (freshWorld stagedFS)
    (("src/META-INF".toList, Node.dir) :: stagedFS) (by decide) (by decide) (by decide)
    (by decide) (by decide) (by decide) (by decide) (by decide)
  refine ⟨h.2.2.2 [77, 97] (by decide) (by decide), h.2.1, ?_⟩
  decide

/-- C4 as stated fails: the staged file `notes.java` does not end with `.class`,
yet its output path ends with `.java`, so `extract` starts the decompiler on it
and writes the decompiler's output, not the file's bytes. -/
theorem extract_passthrough_counterexample :
    HasSuffix "notes.java".toList ".class".toList = false ∧
      lookupNode stagedFS "/tmp/x/notes.java".toList = some (Node.file [1, 2, 3]) ∧
      (extract demoRun "java".toList "/tmp/x/notes.java".toList [] "./src".toList
        "/tmp/x".toList (freshWorld stagedFS)).world.calls =
        [["java".toList, "-jar".toList, "cfr.jar".toList, "/tmp/x/notes.java".toList, []]] ∧
      lookupNode (extract demoRun "java".toList "/tmp/x/notes.java".toList [] "./src".toList
        "/tmp/x".toList (freshWorld stagedFS)).world.fs "src/notes.java".toList =
        some (Node.file [9]) := by
  decide

/-- C10, the failing input: for the staged file `/tmp/x/s` and the output root
`./src` the output path is `./src/s`, but the directory `extract` looks for and
makes is `./rc/s`: the first `s` of `./src/s` was cut out, not the last path
element. -/
theorem outputDir_first_occurrence :
    outputPath "/tmp/x/s".toList "./src".toList "/tmp/x".toList = "./src/s".toList ∧
      outputDir "/tmp/x/s".toList "./src".toList "/tmp/x".toList = "./rc/s".toList ∧
      lookupNode stagedFS "rc/s".toList = none ∧
      lookupNode (extract demoRun "java".toList "/tmp/x/s".toList [] "./src".toList
        "/tmp/x".toList (freshWorld stagedFS)).world.fs "rc/s".toList = some Node.dir := by
  decide

/-- C6, the failing input: the output `./src/s` of the staged file `/tmp/x/s`
exists already, yet `extract` is no no-op: it makes the directories `rc` and
`rc/s`. -/
theorem extract_not_noop :
    Stat (("src/s".toList, Node.file [5]) :: stagedFS)
        (outputPath "/tmp/x/s".toList "./src".toList "/tmp/x".toList) =
        StatResult.found (Node.file [5]) ∧
      lookupNode (("src/s".toList, Node.file [5]) :: stagedFS) "rc/s".toList = none ∧
      lookupNode (extract demoRun "java".toList "/tmp/x/s".toList [] "./src".toList
        "/tmp/x".toList (freshWorld (("src/s".toList, Node.file [5]) :: stagedFS))).world.fs
        "rc/s".toList = some Node.dir := by
  decide

/-! ## the walk -/

theorem Join_Join (p name r : Str) (hp : p ≠ []) :
    Join (Join p name) r = Join p (name ++ '/' :: r) := by
  have h1 : Join p name = Clean (p ++ '/' :: name) := by simp [Join, hp]
  have h2 : Join p (name ++ '/' :: r) = Clean (p ++ '/' :: (name ++ '/' :: r)) := by
    simp [Join, hp]
  have h3 : Join (Clean (p ++ '/' :: name)) r = Clean (Clean (p ++ '/' :: name) ++ '/' :: r) := by
    simp [Join, Clean_ne_nil]
  rw [h1, h2, h3, Clean_append_Clean _ _ (by simp)]
  simp

theorem Join_ne_nil (p name : Str) (hp : p ≠ []) : Join p name ≠ [] := by
  simp only [Join, hp, ne_eq, not_false_eq_true, if_true]
  exact Clean_ne_nil _

theorem flatten_cons (root : Str) (e : Entry) (rest : List Entry) :
    flatten root (e :: rest) = flatten root [e] ++ flatten root rest := by
  simp [flatten, relPathsOf]

theorem flatten_dir (p name : Str) (r : Bool) (ch : List Entry) (hp : p ≠ []) :
    flatten p [Entry.dir name r ch] = flatten (Join p name) ch := by
  simp only [flatten, relPathsOf, Entry.relPaths, List.append_nil, List.map_map]
  congr 1
  apply List.map_congr_left
  intro x _
  simp [Function.comp, Join_Join p name x hp]

mutual
theorem visit_handed (run : List Str → FS → Option Bytes) (g : Globals) :
    ∀ (e : Entry) (p : Str) (w : World), p ≠ [] →
      ∃ l, (visit run g p e w).world.handed = w.handed ++ l ∧ l <+: flatten p [e] ∧
        ((visit run g p e w).isDone = true → l = flatten p [e])
  | Entry.file name, p, w, _ => by
    unfold visit
    by_cases hc : Contains (Join p name) ['$'] = true
    · refine ⟨[], ?_, ?_, ?_⟩
      · simp [hc, Outcome.world]
      · exact List.nil_prefix
      · intro _; simp [flatten, relPathsOf, Entry.relPaths, hc]
    · have hc2 : Contains (Join p name) ['$'] = false := by simpa using hc
      refine ⟨[Join p name], ?_, ?_, ?_⟩
      · simp only [hc2, Bool.not_false, if_true]
        rw [extract_handed]
      · simp [flatten, relPathsOf, Entry.relPaths, hc2]
      · intro _; simp [flatten, relPathsOf, Entry.relPaths, hc2]
  | Entry.dir name readable children, p, w, hp => by
    unfold visit
    cases readable with
    | false =>
      refine ⟨[], ?_, List.nil_prefix, ?_⟩
      · simp [Outcome.world]
      · intro h; simp [Outcome.isDone] at h
    | true =>
      simp only [if_true]
      rw [flatten_dir p name true children hp]
      exact walk_handed run g children (Join p name) w (Join_ne_nil p name hp)
theorem walk_handed (run : List Str → FS → Option Bytes) (g : Globals) :
    ∀ (es : List Entry) (p : Str) (w : World), p ≠ [] →
      ∃ l, (walk run g p es w).world.handed = w.handed ++ l ∧ l <+: flatten p es ∧
        ((walk run g p es w).isDone = true → l = flatten p es)
  | [], p, w, _ => by
    refine ⟨[], ?_, ?_, ?_⟩
    · simp [walk, Outcome.world]
    · exact List.nil_prefix
    · intro _; simp [flatten, relPathsOf]
  | e :: rest, p, w, hp => by
    obtain ⟨l1, h1, h2, h3⟩ := visit_handed run g e p w hp
    unfold walk
    cases hv : visit run g p e w with
    | done w1 =>
      rw [hv] at h1 h3
      simp only [Outcome.world] at h1
      have hl1 : l1 = flatten p [e] := h3 rfl
      obtain ⟨l2, k1, k2, k3⟩ := walk_handed run g rest p w1 hp
      refine ⟨l1 ++ l2, ?_, ?_, ?_⟩
      · simp only
        rw [k1, h1, List.append_assoc]
      · rw [flatten_cons, hl1]
        exact (List.prefix_append_right_inj _).2 k2
      · intro hd
        simp only at hd
        rw [flatten_cons, hl1, k3 hd]
    | fatal msg w1 =>
      rw [hv] at h1
      refine ⟨l1, h1, ?_, ?_⟩
      · rw [flatten_cons]
        exact h2.trans (List.prefix_append _ _)
      · intro hd; simp [Outcome.isDone] at hd
end

/-- C9 (amended): `files` is the listing `ioutil.ReadDir` returns for the root,
each directory in it carrying the listing returned when the walk enters it.
The walk is a total function, and the paths it hands to `extract` are an
initial part of the depth-first flattening of these listings (the root joined
with each file's relative path, in listing order, a directory's files where the
directory stands, without the paths that contain `$`); they are the whole
flattening when no fatal error ends the run. -/
theorem traverse_flatten (run : List Str → FS → Option Bytes) (g : Globals) (root : Str)
    (files : List Entry) (w : World) (hroot : root ≠ []) :
    ∃ l, (traverse run g root (some files) w).world.handed = w.handed ++ l ∧
      l <+: flatten root files ∧
      ((traverse run g root (some files) w).isDone = true → l = flatten root files) :=
  walk_handed run g files root w hroot

/-- Witness of C9: the listings of the tree staged under `/tmp/x` are walked to
the end and the three files are handed over in depth-first order. -/
theorem traverse_flatten_witness :
    (traverse demoRun demoGlobals "/tmp/x".toList (some stagedTree)
        (freshWorld stagedFS)).isDone = true ∧
      (traverse demoRun demoGlobals "/tmp/x".toList (some stagedTree)
        (freshWorld stagedFS)).world.handed =
        ["/tmp/x/META-INF/MANIFEST.MF".toList, "/tmp/x/notes.java".toList,
          "/tmp/x/s".toList] := by
  obtain ⟨l, h1, _, h3⟩ := traverse_flatten demoRun demoGlobals "/tmp/x".toList stagedTree
    (freshWorld stagedFS) (by decide)
  have hd : (traverse demoRun demoGlobals "/tmp/x".toList (some stagedTree)
      (freshWorld stagedFS)).isDone = true := by decide
  refine ⟨hd, ?_⟩
  rw [h1, h3 hd]
  decide

/-- C9 as stated fails: when the decompiler fails on `A.class` the run ends
there, and `B.class`, a file of the flattening, is never handed to `extract`. -/
theorem traverse_flatten_counterexample :
    flatten "/tmp/x".toList [Entry.file "A.class".toList, Entry.file "B.class".toList] =
        ["/tmp/x/A.class".toList, "/tmp/x/B.class".toList] ∧
      (traverse failRun demoGlobals "/tmp/x".toList
        (some [Entry.file "A.class".toList, Entry.file "B.class".toList])
        (freshWorld stagedFS)).world.handed = ["/tmp/x/A.class".toList] := by
  decide

/-- C2, the failing input: `Unzip` returns the illegal-file-path error for the
archive `Foo.class`, `../../evil`, `Bar.class`, but `main` drops the error: the
run goes on, walks the staging directory, starts the decompiler on the staged
`Foo.class` and writes `src/Foo.java`. -/
theorem main_ignores_unzip_error :
    (Unzip (demoEnv evilJar).openReader "app.jar".toList "/tmp/cfr1".toList
        (("/tmp/cfr1".toList, Node.dir) :: baseFS)).2 =
        some (Error.errorf "illegal file path: /evil".toList) ∧
      (main (demoEnv evilJar) baseFS).isDone = true ∧
      (main (demoEnv evilJar) baseFS).world.handed = ["/tmp/cfr1/Foo.class".toList] ∧
      (main (demoEnv evilJar) baseFS).world.calls.length = 1 ∧
      lookupNode (main (demoEnv evilJar) baseFS).world.fs "src/Foo.java".toList =
        some (Node.file [9]) := by
  decide

/-- C7, the failing input: in the run `cfr -jar app.jar com.acme.Foo` the first
positional argument is `com.acme.Foo`, but the class name on both decompiler
command lines is the empty string: `class` was read before the command line
was parsed. -/
theorem main_class_name_empty :
    (parseFrom (demoEnv classJar).args none commandLine).map (fun f => f.Arg 0) =
        some "com.acme.Foo".toList ∧
      (main (demoEnv classJar) baseFS).world.calls =
        [["/usr/bin/java".toList, "-jar".toList, "cfr.jar".toList,
            "/tmp/cfr1/com/acme/Bar.class".toList, []],
          ["/usr/bin/java".toList, "-jar".toList, "cfr.jar".toList,
            "/tmp/cfr1/com/acme/Foo.class".toList, []]] := by
  decide



/-! ## a second call of `extract` -/

theorem lookupNode_cons (fs : FS) (k q : Str) (n : Node) :
    lookupNode ((k, n) :: fs) q =
      if q = ['/'] ∨ q = ['.'] then some Node.dir
      else if q = k then some n else lookupNode fs q := by
  by_cases hs : q = ['/'] ∨ q = ['.']
  · simp [lookupNode, hs]
  · by_cases hk : q = k
    · rw [if_neg hs, if_pos hk, hk]
      exact lookupNode_cons_self fs k n (by rw [← hk]; exact hs)
    · rw [if_neg hs, if_neg hk]
      exact lookupNode_cons_ne fs k q n hk

theorem isFileAt_cons_file (fs : FS) (k a : Str) (b : Bytes) (h : isFileAt fs a = true) :
    isFileAt ((k, Node.file b) :: fs) a = true := by
  unfold isFileAt at h ⊢
  rw [lookupNode_cons]
  by_cases hs : a = ['/'] ∨ a = ['.']
  · simp [lookupNode, hs] at h
  · rw [if_neg hs]
    by_cases hk : a = k
    · simp [hk]
    · rw [if_neg hk]; exact h

theorem Stat_cons_file (fs : FS) (k d : Str) (b : Bytes)
    (h : Stat fs d ≠ StatResult.notExist) :
    Stat ((k, Node.file b) :: fs) d ≠ StatResult.notExist := by
  have hd : d ≠ [] := by
    intro e; apply h; simp [Stat, e]
  intro hcon
  unfold Stat at hcon
  rw [if_neg hd] at hcon
  split at hcon
  · simp at hcon
  · rename_i hany
    split at hcon
    · simp at hcon
    · rename_i hnone
      rw [lookupNode_cons] at hnone
      have hl : lookupNode fs (Clean d) = none := by
        by_cases hs : Clean d = ['/'] ∨ Clean d = ['.']
        · simp [hs] at hnone
        · rw [if_neg hs] at hnone
          by_cases hk : Clean d = k
          · simp [hk] at hnone
          · rw [if_neg hk] at hnone; exact hnone
      apply h
      unfold Stat
      rw [if_neg hd]
      have hany2 : ¬ (ancestors (Clean d)).any (isFileAt fs) = true := by
        intro hx
        apply hany
        rw [List.any_eq_true] at hx ⊢
        obtain ⟨a, ha, hf⟩ := hx
        exact ⟨a, ha, isFileAt_cons_file fs k a b hf⟩
      rw [if_neg hany2, hl]

theorem MkdirAll_chain (fs fs1 : FS) (d : Str) (h : MkdirAll fs d = some fs1) :
    d ≠ [] ∧ ∀ a ∈ ancestors (Clean d) ++ [Clean d], lookupNode fs1 a = some Node.dir := by
  unfold MkdirAll at h
  split at h
  · simp at h
  · rename_i hd
    split at h
    · simp at h
    · rename_i hany
      simp only [Option.some.injEq] at h
      refine ⟨hd, ?_⟩
      intro a ha
      rw [← h]
      by_cases hm : a ∈ (ancestors (Clean d) ++ [Clean d]).filter
          (fun a => (lookupNode fs a).isNone)
      · exact lookupNode_mkdirs_mem _ fs a hm
      · rw [lookupNode_mkdirs_not_mem _ fs a hm]
        have hsome : (lookupNode fs a).isNone = false := by
          by_contra hx
          apply hm
          rw [List.mem_filter]
          exact ⟨ha, by simpa using hx⟩
        have hnf : isFileAt fs a = false := by
          by_contra hx
          apply hany
          rw [List.any_eq_true]
          exact ⟨a, ha, by simpa using hx⟩
        unfold isFileAt at hnf
        cases hl : lookupNode fs a with
        | none => rw [hl] at hsome; simp at hsome
        | some n =>
          cases n with
          | file b => rw [hl] at hnf; simp at hnf
          | dir => rfl

theorem Stat_after_MkdirAll (fs fs1 : FS) (d : Str) (h : MkdirAll fs d = some fs1) :
    Stat fs1 d = StatResult.found Node.dir := by
  obtain ⟨hd, hall⟩ := MkdirAll_chain fs fs1 d h
  unfold Stat
  rw [if_neg hd]
  have hany : ¬ (ancestors (Clean d)).any (isFileAt fs1) = true := by
    intro hx
    rw [List.any_eq_true] at hx
    obtain ⟨a, ha, hf⟩ := hx
    have := hall a (List.mem_append_left _ ha)
    unfold isFileAt at hf
    rw [this] at hf
    simp at hf
  rw [if_neg hany, hall (Clean d) (by simp)]

theorem ensureDir_again (fs fs1 : FS) (d : Str) (h : ensureDir fs d = some fs1) :
    Stat fs1 d ≠ StatResult.notExist := by
  unfold ensureDir at h
  split at h
  · rw [Stat_after_MkdirAll fs fs1 d h]; simp
  · rename_i hne
    simp only [Option.some.injEq] at h
    rw [← h]
    intro e
    apply hne
    rw [e]; rfl

theorem ensureDir_of_exists (fs : FS) (d : Str) (h : Stat fs d ≠ StatResult.notExist) :
    ensureDir fs d = some fs := by
  unfold ensureDir
  have : IsNotExist (Stat fs d) = false := by
    cases hs : Stat fs d with
    | found n => rfl
    | notExist => exact absurd hs h
    | otherErr => rfl
  rw [this]
  simp

theorem Stat_after_createFile (fs fs2 : FS) (o : Str) (b : Bytes)
    (h : createFile fs o b = some fs2) : Stat fs2 o = StatResult.found (Node.file b) := by
  obtain ⟨e, ho, hnd, ha⟩ := createFile_some fs fs2 o b h
  have hns := not_special_of_not_dir fs (Clean o) hnd
  unfold Stat
  rw [if_neg ho]
  have hany : ¬ (ancestors (Clean o)).any (isFileAt fs2) = true := by
    intro hx
    rw [List.any_eq_true] at hx
    obtain ⟨a, hmem, hf⟩ := hx
    rw [List.all_eq_true] at ha
    have hdir := ha a hmem
    have hane : a ≠ Clean o := by
      intro e2; rw [e2, hnd] at hdir; simp at hdir
    unfold isFileAt at hf
    rw [e, lookupNode_cons_ne fs _ _ _ hane] at hf
    unfold isDirAt at hdir
    cases hl : lookupNode fs a with
    | none => rw [hl] at hf; simp at hf
    | some n =>
      cases n with
      | file c => rw [hl] at hdir; simp at hdir
      | dir => rw [hl] at hf; simp at hf
  rw [if_neg hany, e, lookupNode_cons_self fs _ _ hns]

/-- A call of `extract` that returns leaves a state in which the same call
changes nothing: it starts no decompiler and leaves the file system as it is. -/
theorem extract_twice (run : List Str → FS → Option Bytes) (java path cls out tempDir : Str)
    (w w1 : World) (h : extract run java path cls out tempDir w = Outcome.done w1) :
    extract run java path cls out tempDir w1 = Outcome.done w1 := by
  have key : ∀ fs2 : FS, Stat fs2 (outputDir path out tempDir) ≠ StatResult.notExist →
      IsNotExist (Stat fs2 (outputPath path out tempDir)) = false →
      ∀ w2 : World, w2.fs = fs2 →
        extract run java path cls out tempDir w2 = Outcome.done w2 := by
    intro fs2 h1 h2 w2 hw
    unfold extract
    rw [hw, ensureDir_of_exists fs2 _ h1]
    simp only [h2, Bool.false_eq_true, if_false]
    rw [← hw]
  unfold extract at h
  cases hdir : ensureDir w.fs (outputDir path out tempDir) with
  | none => rw [hdir] at h; simp at h
  | some fs1 =>
    rw [hdir] at h
    simp only at h
    have hd1 := ensureDir_again _ _ _ hdir
    by_cases hne : IsNotExist (Stat fs1 (outputPath path out tempDir)) = true
    · rw [if_pos hne] at h
      by_cases hj : HasSuffix (outputPath path out tempDir) ".java".toList = true
      · rw [if_pos hj] at h
        cases hr : run (decompileCmd java (slashed path) cls) fs1 with
        | none => rw [hr] at h; simp at h
        | some bytes =>
          rw [hr] at h
          simp only at h
          cases hc : createFile fs1 (outputPath path out tempDir) bytes with
          | none => rw [hc] at h; simp at h
          | some fs2 =>
            rw [hc] at h
            simp only [Outcome.done.injEq] at h
            obtain ⟨e, _, _, _⟩ := createFile_some _ _ _ _ hc
            refine key fs2 ?_ ?_ w1 (by rw [← h])
            · rw [e]; exact Stat_cons_file _ _ _ _ hd1
            · rw [Stat_after_createFile _ _ _ _ hc]; rfl
      · rw [if_neg hj] at h
        cases hcp : copyFile fs1 (slashed path) (outputPath path out tempDir) with
        | mk fs2 res =>
          rw [hcp] at h
          cases res with
          | none => simp at h
          | some n =>
            simp only [Outcome.done.injEq] at h
            unfold copyFile at hcp
            split at hcp
            · split at hcp
              · simp at hcp
              · rename_i fsa hca
                split at hcp
                · rename_i d hd
                  split at hcp
                  · simp at hcp
                  · rename_i fsb hcb
                    simp only [Prod.mk.injEq, Option.some.injEq] at hcp
                    obtain ⟨ea, _, _, _⟩ := createFile_some _ _ _ _ hca
                    obtain ⟨eb, _, _, _⟩ := createFile_some _ _ _ _ hcb
                    refine key fs2 ?_ ?_ w1 (by rw [← h])
                    · rw [← hcp.1, eb, ea]
                      exact Stat_cons_file _ _ _ _ (Stat_cons_file _ _ _ _ hd1)
                    · rw [← hcp.1, Stat_after_createFile _ _ _ _ hcb]; rfl
                · simp at hcp
            · simp at hcp
    · rw [if_neg hne] at h
      simp only [Outcome.done.injEq] at h
      exact key fs1 hd1 (by simpa using hne) w1 (by rw [← h])

end Cfr
